import Mathlib

/-!
Shallow embedding of the retrieval/indexing core of the RAG system
(src/indexing/vector_store.py, src/indexing/hybrid_search.py,
src/preprocessing/chunker.py, src/cache.py, scripts/build_index.py),
together with theorems settling the specification claims.

Modelling conventions:
* Python dicts with a fixed field set become Lean structures; heterogeneous
  metadata/filter dicts become association lists over an inductive value type.
* numpy float32 / faiss distances are modelled exactly over ℚ; the value faiss
  uses to pad result slots when k exceeds the number of stored vectors
  (FLT_MAX, with label -1) is the rational `faissPadDistance`.
* Fallible operations return `Except Unit`; a raised Python exception is
  `Except.error ()` and, since every embedded operation is written so that no
  state field is assigned before its last possible raise point (matching the
  statement order of the source), the caller keeps the pre-call state.
* External collaborators (the sentence-transformer embedding model and the
  rank_bm25 scorer, which are third-party libraries outside this repository)
  are parameters of the functions that consume them, exactly at the boundary
  where the source calls into them.
-/

namespace RagCore

/-- Python values appearing in metadata / filter dicts.  The only list-valued
entries this repository ever stores or filters by are lists of strings (the
`tags` metadata field and list-valued filter values), so `list` carries
`List String`. -/
inductive Val where
  | str (s : String)
  | bool (b : Bool)
  | int (n : Int)
  | list (l : List String)
deriving DecidableEq, Repr

/-- A metadata dict (insertion-ordered association list, keys unique). -/
abbrev Metadata := List (String × Val)

/-- A stored chunk record, after the embedding field has been stripped
(`chunk_copy.pop('embedding', None)` in `VectorStore.add_chunks`). -/
structure Chunk where
  content : String
  chunk_index : Nat
  metadata : Metadata
deriving DecidableEq, Repr

instance : Inhabited Chunk := ⟨⟨"", 0, []⟩⟩

/-- A chunk as handed to `add_chunks`: the dict may or may not carry an
`embedding` key (attached by the external embedding generator). -/
structure EChunk where
  content : String
  chunk_index : Nat
  metadata : Metadata
  embedding : Option (List ℚ)
deriving DecidableEq, Repr

/-- Dropping the embedding field (`chunk_copy.pop('embedding', None)`). -/
def EChunk.strip (c : EChunk) : Chunk := ⟨c.content, c.chunk_index, c.metadata⟩

/-- The faiss `IndexFlatL2`: its own dimension `d` plus the stored vectors. -/
structure FaissIndex where
  d : Nat
  vectors : List (List ℚ)
deriving DecidableEq, Repr

/-- State of `VectorStore` (src/indexing/vector_store.py): the flat index and
the two parallel lists. -/
structure VectorStore where
  dimension : Nat
  index : FaissIndex
  chunks : List Chunk
  metadata_index : List Metadata
deriving DecidableEq, Repr

/-- `VectorStore.__init__(dimension)`. -/
def VectorStore.init (dimension : Nat) : VectorStore :=
  ⟨dimension, ⟨dimension, []⟩, [], []⟩

/-- The parallel-list invariant of the store. -/
def VectorStore.Inv (s : VectorStore) : Prop :=
  s.index.vectors.length = s.chunks.length ∧
    s.chunks.length = s.metadata_index.length

instance (s : VectorStore) : Decidable s.Inv := by
  unfold VectorStore.Inv; infer_instance

/-- `VectorStore.add_chunks`.  The source first evaluates the embedding list
comprehension (KeyError if any chunk lacks the key), `np.array(...).astype`
(ValueError on an empty or ragged batch), and `self.index.add` (which asserts
each row's width equals the index's own `d`) — all before any of
`self.index`, `self.chunks`, `self.metadata_index` is touched, so every
failure leaves the store unmodified. -/
def VectorStore.add_chunks (s : VectorStore) (cs : List EChunk) :
    Except Unit VectorStore :=
  match cs.mapM (fun c =>
    match c.embedding with
    | some e => Except.ok e
    | none => Except.error ()) with
  | .error e => .error e
  | .ok embs =>
    if embs.isEmpty then Except.error ()
    else if embs.any (fun e => e.length ≠ s.index.d) then Except.error ()
    else Except.ok { s with
      index := ⟨s.index.d, s.index.vectors ++ embs⟩,
      chunks := s.chunks ++ cs.map EChunk.strip,
      metadata_index := s.metadata_index ++ cs.map (·.metadata) }

/-- The store a caller observes after an `add_chunks` call: the new state on
success, the unmodified pre-call state when the call raised. -/
def applyAdd (s : VectorStore) (cs : List EChunk) : VectorStore :=
  match s.add_chunks cs with
  | .ok s' => s'
  | .error _ => s

/-- A whole sequence of `add_chunks` calls, each observed as `applyAdd`. -/
def runAdds (s : VectorStore) (calls : List (List EChunk)) : VectorStore :=
  calls.foldl applyAdd s

/-- `VectorStore._matches_filters`.  Per filter key: a key absent from the
chunk's metadata is skipped; a list filter value demands membership; a bool
filter value demands equality (`metadata.get(key, False) != value` — the key
is present on this path); anything else demands exact equality. -/
def matchesFilters (metadata : Metadata) (filters : Metadata) : Bool :=
  filters.all fun kv =>
    match metadata.lookup kv.1 with
    | none => true
    | some mv =>
      match kv.2 with
      | .list l => decide (∃ x ∈ l, mv = .str x)
      | .bool b => decide (mv = .bool b)
      | v => decide (mv = v)

/-- Squared Euclidean distance, the metric of `IndexFlatL2`. -/
def sqDist (a b : List ℚ) : ℚ :=
  (List.zipWith (fun x y => (x - y) * (x - y)) a b).sum

/-- The distance faiss reports in padding slots when asked for more
neighbours than the index holds (FLT_MAX), with label -1. -/
def faissPadDistance : ℚ := 2 ^ 128 - 2 ^ 104

/-- Stable insertion: place `x` before the first element `y` with `le x y`.
Combined with `stableSort` below this reproduces the output of any stable
sort (numpy argsort kind used by faiss's exact scan; Python `sorted`). -/
def insertSorted (le : α → α → Bool) (x : α) : List α → List α
  | [] => [x]
  | y :: ys => if le x y then x :: y :: ys else y :: insertSorted le x ys

/-- Stable sort by `le` (insertion sort; agrees with every stable sort). -/
def stableSort (le : α → α → Bool) : List α → List α
  | [] => []
  | x :: xs => insertSorted le x (stableSort le xs)

/-- `faiss.IndexFlatL2.search` for one query: every stored vector is scored,
results are ordered by distance ascending (ties by insertion index), and the
output is padded to `searchK` entries with label -1 and FLT_MAX distance. -/
def faissSearch (idx : FaissIndex) (q : List ℚ) (searchK : Nat) :
    List (Int × ℚ) :=
  let scored := idx.vectors.enum.map (fun p => ((p.1 : Int), sqDist q p.2))
  let sorted := stableSort (fun a b => decide (a.2 ≤ b.2)) scored
  sorted.take searchK ++
    List.replicate (searchK - idx.vectors.length) ((-1 : Int), faissPadDistance)

/-- One entry of `VectorStore.search`'s result list. -/
structure SearchResult where
  chunk : Chunk
  metadata : Metadata
  score : ℚ
  similarity : ℚ
deriving DecidableEq, Repr

/-- Python sequence indexing `l[i]`: negative indices count from the end;
out-of-range access is an IndexError (`none`). -/
def pyGet (l : List α) (i : Int) : Option α :=
  let j := if i < 0 then (l.length : Int) + i else i
  if 0 ≤ j then l.get? j.toNat else none

/-- The candidate loop of `VectorStore.search`: skip labels `>= len(chunks)`
(which lets faiss's -1 padding label through), resolve the label by Python
indexing (IndexError on an empty store), drop filter failures, append, and
break once `k` results are collected. -/
def searchLoop (s : VectorStore) (filters : Option Metadata) (k : Nat) :
    List (Int × ℚ) → List SearchResult → Except Unit (List SearchResult)
  | [], acc => .ok acc
  | (idx, dist) :: rest, acc =>
    if (s.chunks.length : Int) ≤ idx then searchLoop s filters k rest acc
    else
      match pyGet s.chunks idx, pyGet s.metadata_index idx with
      | some chunk, some metadata =>
        if (match filters with
            | some f => !(matchesFilters metadata f)
            | none => false) then
          searchLoop s filters k rest acc
        else
          let acc' := acc ++ [⟨chunk, metadata, dist, 1 / (1 + dist)⟩]
          if k ≤ acc'.length then .ok acc' else searchLoop s filters k rest acc'
      | _, _ => .error ()

/-- `VectorStore.search(query_embedding, k, filters)`.  `filters=None` and the
falsy empty dict are both `none` here. -/
def VectorStore.search (s : VectorStore) (q : List ℚ) (k : Nat)
    (filters : Option Metadata) : Except Unit (List SearchResult) :=
  let searchK := if filters.isSome then k * 3 else k
  searchLoop s filters k (faissSearch s.index q searchK) []

/-- Python whitespace over ASCII content: the characters `str.strip()` /
`str.split()` treat as space, which is also regex `\s` here. -/
def isPySpace (c : Char) : Bool :=
  c = ' ' || c = '\t' || c = '\n' || c = '\r' || c = '\x0b' || c = '\x0c'

/-- Python `str.strip()`. -/
def pyStrip (s : String) : String :=
  String.mk ((s.data.dropWhile isPySpace).reverse.dropWhile isPySpace).reverse

/-- Python substring containment `needle in hay`. -/
def strContains (hay needle : String) : Bool :=
  hay.data.tails.any (fun t => needle.data.isPrefixOf t)

/-- Worker for `pySplitChar`. -/
def pySplitCharGo (sep : Char) : List Char → List Char → List String
  | acc, [] => [String.mk acc.reverse]
  | acc, c :: rest =>
    if c = sep then String.mk acc.reverse :: pySplitCharGo sep [] rest
    else pySplitCharGo sep (c :: acc) rest

/-- Python `str.split(sep)` for a one-character separator (used with `'\n'`
and, for path components, `'/'`): empty pieces are kept. -/
def pySplitChar (sep : Char) (s : String) : List String :=
  pySplitCharGo sep [] s.data

/-- Python `str.startswith(pre)`. -/
def strStartsWith (s pre : String) : Bool := pre.data.isPrefixOf s.data

/-- Python `str.endswith(suf)`. -/
def strEndsWith (s suf : String) : Bool :=
  suf.data.reverse.isPrefixOf s.data.reverse

/-! ## Hybrid search (src/indexing/hybrid_search.py) -/

/-- `query.lower().split()`: lowercasing then splitting on whitespace runs,
dropping empty pieces (Python `str.split()` with no argument). -/
def pyLowerSplit (s : String) : List String :=
  ((s.data.map Char.toLower).splitOnP isPySpace).filterMap
    (fun w => if w.isEmpty then none else some (String.mk w))

/-- `HybridSearch._find_chunk_index`: linear scan for the first stored chunk
whose `content` equals the probe chunk's `content`. -/
def findChunkIndex (stored : List Chunk) (c : Chunk) : Option Nat :=
  (stored.enum.find? (fun p => p.2.content == c.content)).map (·.1)

/-- One entry of the `combined_scores` dict: corpus index ↦ score and the
carried result dict. -/
abbrev CombinedTable := List (Nat × ℚ × SearchResult)

/-- Python dict assignment `d[key] = e`: replace in place if the key exists
(keeping its position), otherwise append (insertion order). -/
def dictWrite (key : Nat) (e : ℚ × SearchResult) : CombinedTable → CombinedTable
  | [] => [(key, e)]
  | (k', e') :: rest =>
    if key = k' then (key, e) :: rest else (k', e') :: dictWrite key e rest

/-- `combined_scores[idx]['score'] += d`. -/
def dictAddScore (key : Nat) (d : ℚ) : CombinedTable → CombinedTable
  | [] => []
  | (k', e') :: rest =>
    if key = k' then (k', e'.1 + d, e'.2) :: rest
    else (k', e') :: dictAddScore key d rest

/-- `idx in combined_scores`. -/
def dictHas (key : Nat) (t : CombinedTable) : Bool :=
  t.any (fun p => p.1 = key)

/-- The first loop of `_combine_results`: seed the table from the semantic
results, keyed by `_find_chunk_index` (results with no content match are
skipped), score `alpha * similarity`. -/
def seedSemantic (stored : List Chunk) (alpha : ℚ) (sem : List SearchResult) :
    CombinedTable :=
  sem.foldl (fun acc r =>
    match findChunkIndex stored r.chunk with
    | some i => dictWrite i (alpha * r.similarity, r) acc
    | none => acc) []

/-- `bm25_scores / bm25_scores.max() if bm25_scores.max() > 0 else bm25_scores`;
numpy's `.max()` raises on an empty array. -/
def normalizeBM25 (scores : List ℚ) : Except Unit (List ℚ) :=
  match scores.max? with
  | none => .error ()
  | some m => .ok (if 0 < m then scores.map (· / m) else scores)

/-- The second loop of `_combine_results`: walk the normalized scores; an
index already in the table gets `(1-alpha) * score` added; otherwise, if the
score clears the 0.1 noise floor and the metadata passes the filters, a fresh
entry (similarity 0, score 0) is inserted.  Reading
`vector_store.metadata_index[idx]` / `.chunks[idx]` raises if the scorer's
corpus is longer than the store's lists. -/
def bm25Step (s : VectorStore) (alpha : ℚ) (filters : Option Metadata)
    (acc : CombinedTable) (p : Nat × ℚ) : Except Unit CombinedTable :=
  let idx := p.1
  let b := p.2
  if dictHas idx acc then .ok (dictAddScore idx ((1 - alpha) * b) acc)
  else if 1 / 10 < b then
    match s.metadata_index.get? idx with
    | none => .error ()
    | some metadata =>
      if (match filters with
          | some f => !(matchesFilters metadata f)
          | none => false) then .ok acc
      else
        match s.chunks.get? idx with
        | none => .error ()
        | some ch =>
          .ok (dictWrite idx ((1 - alpha) * b, ⟨ch, metadata, 0, 0⟩) acc)
  else .ok acc

/-- A fused result: the carried result dict plus `combined_score`. -/
structure HybridResult where
  chunk : Chunk
  metadata : Metadata
  score : ℚ
  similarity : ℚ
  combined_score : ℚ
deriving DecidableEq, Repr

/-- Reassembling `final_results` from a table entry. -/
def toHybrid (p : Nat × ℚ × SearchResult) : HybridResult :=
  ⟨p.2.2.chunk, p.2.2.metadata, p.2.2.score, p.2.2.similarity, p.2.1⟩

/-- `HybridSearch._combine_results`. -/
def combineResults (s : VectorStore) (sem : List SearchResult)
    (bm25Scores : List ℚ) (alpha : ℚ) (filters : Option Metadata) :
    Except Unit (List HybridResult) :=
  match normalizeBM25 bm25Scores with
  | .error e => .error e
  | .ok norm =>
    match norm.enum.foldlM (bm25Step s alpha filters)
        (seedSemantic s.chunks alpha sem) with
    | .error e => .error e
    | .ok table =>
      .ok ((stableSort (fun a b => decide (b.2.1 ≤ a.2.1)) table).map toHybrid)

/-- `HybridSearch.search` on a built BM25 index.  The embedding model and the
rank_bm25 scorer are external collaborators, passed as the query embedding
`queryEmb` and the scoring function `getScores` (applied, as in the source,
to the lowercased whitespace-split query). -/
def hybridSearch (s : VectorStore) (getScores : List String → List ℚ)
    (queryEmb : List ℚ) (query : String) (k : Nat) (alpha : ℚ)
    (filters : Option Metadata) : Except Unit (List HybridResult) :=
  match s.search queryEmb (k * 2) filters with
  | .error e => .error e
  | .ok sem =>
    match combineResults s sem (getScores (pyLowerSplit query))
        alpha filters with
    | .error e => .error e
    | .ok combined => .ok (combined.take k)

/-- `HybridSearch._semantic_search_only`, the fallback used when the BM25
index has not been built. -/
def semanticSearchOnly (s : VectorStore) (queryEmb : List ℚ) (k : Nat)
    (filters : Option Metadata) : Except Unit (List SearchResult) :=
  s.search queryEmb k filters

/-- Forgetting the fused score: the result dict a hybrid entry carries. -/
def HybridResult.underlying (r : HybridResult) : SearchResult :=
  ⟨r.chunk, r.metadata, r.score, r.similarity⟩

/-! ## Result cache (src/cache.py)

The responses directory is a map from file name (the md5 hex digest of the
query) to the parsed JSON entry; the md5 digest itself, a deterministic hash
of the pure bytes of the query, is the parameter `hash`.  `time.time()` is
the explicit clock argument `now`. -/

/-- One cache entry file: `{'query', 'response', 'timestamp'}`. -/
structure CacheEntry where
  query : String
  response : String
  timestamp : ℚ
deriving DecidableEq, Repr

/-- The contents of `responses_dir`, keyed by file name. -/
abbrev CacheDir := List (String × CacheEntry)

/-- Writing a file: overwrite in place or create. -/
def dirWrite (key : String) (e : CacheEntry) : CacheDir → CacheDir
  | [] => [(key, e)]
  | (k', e') :: rest =>
    if key = k' then (key, e) :: rest else (k', e') :: dirWrite key e rest

/-- `cache_file.unlink()`. -/
def dirUnlink (key : String) (d : CacheDir) : CacheDir :=
  d.filter (fun p => p.1 ≠ key)

/-- `ttl_seconds = ttl_days * 24 * 3600`. -/
def ttlSeconds (ttlDays : Nat) : ℚ := (ttlDays : ℚ) * 24 * 3600

/-- `RAGCache.get_response`: miss when the entry file does not exist; if the
stored timestamp is more than `ttl_seconds` old, delete the file and miss;
otherwise return the stored response.  (The `except` arm treating a corrupt
file as a miss is not reachable here: the directory holds parsed entries.)
Returns the response, if any, and the directory after the call. -/
def getResponse (hash : String → String) (ttlSecs : ℚ) (dir : CacheDir)
    (now : ℚ) (query : String) : Option String × CacheDir :=
  let key := hash query
  match dir.lookup key with
  | none => (none, dir)
  | some data =>
    if ttlSecs < now - data.timestamp then (none, dirUnlink key dir)
    else (some data.response, dir)

/-- `RAGCache.set_response`: write `{query, response, timestamp: now}` under
the hash of the query. -/
def setResponse (hash : String → String) (dir : CacheDir) (now : ℚ)
    (query response : String) : CacheDir :=
  dirWrite (hash query) ⟨query, response, now⟩ dir

/-! ## Persistence (`VectorStore.save` / `VectorStore.load`,
`RAGPipeline.load_index`) -/

/-- The four artifacts of an index directory.  `none` models a missing or
unparsable (corrupt) file: reading it raises. -/
structure IndexDir where
  faissIndexFile : Option FaissIndex
  chunksPkl : Option (List Chunk)
  metadataJson : Option (List Metadata)
  infoJson : Option (Nat × Nat × String)
deriving DecidableEq, Repr

/-- `VectorStore.save`: writes all four artifacts (`faiss.index`,
`chunks.pkl`, `metadata.json`, and the `info.json` manifest). -/
def VectorStore.save (s : VectorStore) : IndexDir :=
  ⟨some s.index, some s.chunks, some s.metadata_index,
    some (s.dimension, s.chunks.length, "IndexFlatL2")⟩

/-- `VectorStore.load`: assigns `self.index`, then `self.chunks`, then
`self.metadata_index`, each directly from its artifact; a read failure raises
at that point, leaving the fields already assigned in their new state and the
rest untouched.  The `info.json` manifest is never read.  Returns the store
as the caller observes it afterwards, and whether the load raised
(`false` = an exception escaped). -/
def VectorStore.load (s : VectorStore) (dir : IndexDir) : VectorStore × Bool :=
  match dir.faissIndexFile with
  | none => (s, false)
  | some fidx =>
    let s1 := { s with index := fidx }
    match dir.chunksPkl with
    | none => (s1, false)
    | some cks =>
      let s2 := { s1 with chunks := cks }
      match dir.metadataJson with
      | none => (s2, false)
      | some md => ({ s2 with metadata_index := md }, true)

/-- `RAGPipeline.load_index`: wraps `VectorStore.load` (and the BM25 pickle,
an independent artifact whose absence triggers a rebuild) in a
`try/except` that turns any exception into the return value `False`.  The
pipeline keeps the store exactly as `VectorStore.load` left it. -/
def pipelineLoadIndex (s : VectorStore) (dir : IndexDir) : VectorStore × Bool :=
  s.load dir

/-! ## Chunker (src/preprocessing/chunker.py)

The three regular expressions of `_chunk_cpp` use only one level of brace
nesting inside their bodies, so Python's backtracking behaviour on them is
deterministic and is implemented directly below (see `bodyEnd`). -/

/-- `ChunkingConfig` (src/config.py; defaults 1000 / 200 / 100). -/
structure ChunkingConfig where
  chunk_size : Nat
  overlap : Nat
  min_chunk_size : Nat
deriving DecidableEq, Repr

/-- The tail-anchored overlap of `_chunk_generic`: walk the finished chunk's
lines in reverse, prepending while the accumulated size stays below
`overlap`. -/
def overlapGo (overlap : Nat) : List String → List String × Nat →
    List String × Nat
  | [], st => st
  | l :: ls, (acc, size) =>
    if size + l.length < overlap then
      overlapGo overlap ls (l :: acc, size + l.length)
    else (acc, size)

/-- State of `_chunk_generic`'s line loop. -/
structure GenState where
  chunks : List String
  current : List String
  size : Nat
deriving DecidableEq, Repr

/-- One line of `_chunk_generic`: on overflow, emit the current chunk and
restart from its overlap tail; always append the line. -/
def genStep (cfg : ChunkingConfig) (st : GenState) (line : String) : GenState :=
  if cfg.chunk_size < st.size + line.length && !st.current.isEmpty then
    let ov := overlapGo cfg.overlap st.current.reverse ([], 0)
    ⟨st.chunks ++ ["\n".intercalate st.current], ov.1 ++ [line],
      ov.2 + line.length⟩
  else ⟨st.chunks, st.current ++ [line], st.size + line.length⟩

/-- `SmartChunker._chunk_generic`. -/
def chunkGeneric (cfg : ChunkingConfig) (content : String) : List String :=
  let fin := (pySplitChar '\n' content).foldl (genStep cfg) ⟨[], [], 0⟩
  fin.chunks ++ (if fin.current.isEmpty then []
                 else ["\n".intercalate fin.current])

/-- Regex `\w` on ASCII content. -/
def wordChar (c : Char) : Bool := c.isAlphanum || c = '_'

/-- The body sub-pattern `(?:[^{}]|\{[^{}]*\})*` followed by `\};` (classes,
`requireSemi = true`) or `\}` (implementations and functions).  Greedy
matching with backtracking reduces to: scan tracking whether we are inside a
depth-1 `{...}` group; a nested `{` inside a group, or exhausting the input,
fails the whole match; the first group-external `}` ends the body, and for
classes the next character must then be `;`.  Returns the number of
characters consumed, closer included. -/
def bodyEnd (requireSemi : Bool) : List Char → Bool → Nat → Option Nat
  | [], _, _ => none
  | c :: rest, inGroup, n =>
    if inGroup then
      if c = '}' then bodyEnd requireSemi rest false (n + 1)
      else if c = '{' then none
      else bodyEnd requireSemi rest true (n + 1)
    else
      if c = '}' then
        (if requireSemi then
          match rest with
          | ';' :: _ => some (n + 2)
          | _ => none
        else some (n + 1))
      else if c = '{' then bodyEnd requireSemi rest true (n + 1)
      else bodyEnd requireSemi rest false (n + 1)

/-- Matching `class\s+\w+[^{]*\{BODY\};` at the start of `l`; returns the
match length and the `\w+` run, which is exactly what the follow-up
`re.search(r'class\s+(\w+)', class_def)` extracts as the class name. -/
def matchClassAt (l : List Char) : Option (Nat × List Char) :=
  if "class".data.isPrefixOf l then
    let l1 := l.drop 5
    let sp := (l1.takeWhile isPySpace).length
    if sp = 0 then none
    else
      let l2 := l1.drop sp
      let w := l2.takeWhile wordChar
      if w.isEmpty then none
      else
        let l3 := l2.drop w.length
        let pre := (l3.takeWhile (fun c => c ≠ '{')).length
        match l3.drop pre with
        | '{' :: l5 =>
          match bodyEnd true l5 false 0 with
          | some bn => some (5 + sp + w.length + pre + 1 + bn, w)
          | none => none
        | _ => none
  else none

/-- Matching `{class_name}::\w+[^{]*\{BODY\}` at the start of `l`. -/
def matchImplAt (name : List Char) (l : List Char) : Option Nat :=
  if name.isPrefixOf l then
    let l1 := l.drop name.length
    if "::".data.isPrefixOf l1 then
      let l2 := l1.drop 2
      let w := (l2.takeWhile wordChar).length
      if w = 0 then none
      else
        let l3 := l2.drop w
        let pre := (l3.takeWhile (fun c => c ≠ '{')).length
        match l3.drop pre with
        | '{' :: l5 =>
          match bodyEnd false l5 false 0 with
          | some bn => some (name.length + 2 + w + pre + 1 + bn)
          | none => none
        | _ => none
    else none
  else none

/-- The alternation `void|int|bool|uint\d+|float|double|std::string`
(alternatives start with pairwise distinct characters, so the choice is
deterministic). -/
def funcKeyword (l : List Char) : Option Nat :=
  if "void".data.isPrefixOf l then some 4
  else if "int".data.isPrefixOf l then some 3
  else if "bool".data.isPrefixOf l then some 4
  else if "uint".data.isPrefixOf l then
    let ds := ((l.drop 4).takeWhile Char.isDigit).length
    if ds = 0 then none else some (4 + ds)
  else if "float".data.isPrefixOf l then some 5
  else if "double".data.isPrefixOf l then some 6
  else if "std::string".data.isPrefixOf l then some 11
  else none

/-- Matching
`(?:void|int|bool|uint\d+|float|double|std::string)\s+\w+\s*\([^)]*\)\s*\{BODY\}`
at the start of `l`. -/
def matchFuncAt (l : List Char) : Option Nat :=
  match funcKeyword l with
  | none => none
  | some kn =>
    let l1 := l.drop kn
    let sp := (l1.takeWhile isPySpace).length
    if sp = 0 then none
    else
      let l2 := l1.drop sp
      let w := (l2.takeWhile wordChar).length
      if w = 0 then none
      else
        let l3 := l2.drop w
        let sp2 := (l3.takeWhile isPySpace).length
        match l3.drop sp2 with
        | '(' :: l4 =>
          let args := (l4.takeWhile (fun c => c ≠ ')')).length
          match l4.drop args with
          | ')' :: l5 =>
            let sp3 := (l5.takeWhile isPySpace).length
            match l5.drop sp3 with
            | '{' :: l6 =>
              match bodyEnd false l6 false 0 with
              | some bn => some (kn + sp + w + sp2 + 1 + args + 1 + sp3 + 1 + bn)
              | none => none
            | _ => none
          | _ => none
        | _ => none

/-- `re.finditer` scanning: try the pattern at each position, emit the match
and resume after it (all matches here are non-empty).  Fuelled by the input
length. -/
def reFindIter (matchAt : List Char → Option Nat) :
    Nat → List Char → List (List Char)
  | 0, _ => []
  | _ + 1, [] => []
  | fuel + 1, l@(_ :: rest) =>
    match matchAt l with
    | some n => l.take n :: reFindIter matchAt fuel (l.drop n)
    | none => reFindIter matchAt fuel rest

/-- `re.finditer` for the class pattern, keeping each match's class name. -/
def classFindIter : Nat → List Char → List (List Char × List Char)
  | 0, _ => []
  | _ + 1, [] => []
  | fuel + 1, l@(_ :: rest) =>
    match matchClassAt l with
    | some (n, w) => (l.take n, w) :: classFindIter fuel (l.drop n)
    | none => classFindIter fuel rest

/-- `SmartChunker._chunk_cpp`: one chunk per matched class (with up to three
out-of-line `Name::member` implementations appended), plus every standalone
function match longer than `min_chunk_size`; generic chunking when nothing
matched. -/
def chunkCpp (cfg : ChunkingConfig) (content : String) : List String :=
  let cs := content.data
  let classMatches := classFindIter (cs.length + 1) cs
  let classChunks := classMatches.map (fun m =>
    let classDef := String.mk m.1
    let impls := (reFindIter (matchImplAt m.2) (cs.length + 1) cs).map String.mk
    if impls.isEmpty then classDef
    else classDef ++ "\n\n// Implementations:\n" ++
      "\n\n".intercalate (impls.take 3))
  let funcChunks := (reFindIter matchFuncAt (cs.length + 1) cs).filterMap
    (fun m => if cfg.min_chunk_size < m.length then some (String.mk m)
              else none)
  let chunks := classChunks ++ funcChunks
  if chunks.isEmpty then chunkGeneric cfg content else chunks

/-- The lookahead of `re.split(r'\n(?=#{1,6}\s)', content)`: 1–6 `#` followed
by a whitespace character. -/
def mdHeadingNext (l : List Char) : Bool :=
  let h := (l.takeWhile (· = '#')).length
  decide (1 ≤ h) && decide (h ≤ 6) &&
    (match (l.drop h).head? with
     | some c => isPySpace c
     | none => false)

/-- Splitting the document at every newline that precedes a heading (the
newline is the separator and is consumed). -/
def mdSplitGo : List Char → List Char → List String
  | acc, [] => [String.mk acc.reverse]
  | acc, c :: rest =>
    if c = '\n' && mdHeadingNext rest then
      String.mk acc.reverse :: mdSplitGo [] rest
    else mdSplitGo (c :: acc) rest

/-- `SmartChunker._chunk_markdown`: split on headings, then greedily pack
consecutive non-blank sections into chunks of at most `chunk_size`
characters; a section overflowing on its own becomes its own chunk. -/
def chunkMarkdown (cfg : ChunkingConfig) (content : String) : List String :=
  let sections := mdSplitGo [] content.data
  let step := fun (st : List String × String) (sec : String) =>
    if (pyStrip sec).isEmpty then st
    else if cfg.chunk_size < st.2.length + sec.length then
      (st.1 ++ (if st.2.isEmpty then [] else [pyStrip st.2]), sec)
    else
      (st.1, if st.2.isEmpty then sec else st.2 ++ "\n\n" ++ sec)
  let fin := sections.foldl step ([], "")
  fin.1 ++ (if fin.2.isEmpty then [] else [pyStrip fin.2])

/-- `line.strip().startswith('[') and line.strip().endswith(']')`. -/
def confHeader (line : String) : Bool :=
  strStartsWith (pyStrip line) "[" && strEndsWith (pyStrip line) "]"

/-- `if current_section and current_settings:` flush the grouped chunk. -/
def confFlush (chunks : List String) (sec : Option String)
    (settings : List String) : List String :=
  match sec with
  | some s =>
    if s.isEmpty || settings.isEmpty then chunks
    else chunks ++ [s ++ "\n" ++ "\n".intercalate settings]
  | none => chunks

/-- `f"{current_section}"` with `current_section` possibly still `None`. -/
def pyFormatOptStr : Option String → String
  | none => "None"
  | some s => s

/-- State of `_chunk_config`'s line loop. -/
structure ConfState where
  chunks : List String
  currentSection : Option String
  currentSettings : List String
deriving DecidableEq, Repr

/-- One line of `_chunk_config`: a `[...]` header flushes the previous
section and starts a new one; a non-blank non-comment line is collected, and
if it contains `=` and the marker `AiPlayerbot` it is additionally emitted as
an immediate standalone chunk; other lines are dropped. -/
def confStep (st : ConfState) (line : String) : ConfState :=
  if confHeader line then
    ⟨confFlush st.chunks st.currentSection st.currentSettings,
      some (pyStrip line), []⟩
  else if !(pyStrip line).isEmpty && !(strStartsWith (pyStrip line) "#") then
    let settings' := st.currentSettings ++ [line]
    if strContains line "=" && strContains line "AiPlayerbot" then
      ⟨st.chunks ++ [pyFormatOptStr st.currentSection ++ "\n" ++ line],
        st.currentSection, settings'⟩
    else ⟨st.chunks, st.currentSection, settings'⟩
  else st

/-- `SmartChunker._chunk_config`. -/
def chunkConfig (content : String) : List String :=
  let fin := (pySplitChar '\n' content).foldl confStep ⟨[], none, []⟩
  confFlush fin.chunks fin.currentSection fin.currentSettings

/-- `SmartChunker.chunk_document`: dispatch on the declared type, then keep
only the produced strings whose stripped length reaches `min_chunk_size`,
enriching each with its pre-filter position and a copy of the metadata. -/
def chunkDocument (cfg : ChunkingConfig) (content : String)
    (metadata : Metadata) : List Chunk :=
  let fileType := ((metadata.lookup "type").getD (Val.str "txt"))
  let chunks :=
    if fileType = Val.str "cpp" || fileType = Val.str "h" then
      chunkCpp cfg content
    else if fileType = Val.str "md" then chunkMarkdown cfg content
    else if fileType = Val.str "conf" then chunkConfig content
    else chunkGeneric cfg content
  chunks.enum.filterMap (fun p =>
    if (pyStrip p.2).length < cfg.min_chunk_size then none
    else some ⟨p.2, p.1, metadata⟩)

/-! ## Incremental updater (scripts/build_index.py) -/

/-- `pathlib.PurePath(f).suffix`: the final component's extension, from its
last dot, empty when that dot is leading, trailing or absent. -/
def pathSuffix (f : String) : String :=
  let name :=
    (((pySplitChar '/' f).filter (fun c => !c.isEmpty)).getLast?).getD ""
  let cs := name.data
  match cs.reverse.findIdx? (· = '.') with
  | none => ""
  | some j =>
    let i := cs.length - 1 - j
    if 0 < i && i < cs.length - 1 then String.mk (cs.drop i) else ""

/-- Building `set(...)` from a list and iterating it (Python iterates a set
in an unspecified order; first-occurrence order is the deterministic choice
here — no claim depends on it). -/
def dedupFirst (seen : List String) : List String → List String
  | [] => []
  | x :: xs =>
    if seen.contains x then dedupFirst seen xs
    else x :: dedupFirst (seen ++ [x]) xs

/-- The extension filter of `_get_modified_files`. -/
def relevantExtensions : List String := [".cpp", ".h", ".md", ".conf", ".sql"]

/-- `IncrementalUpdater._get_modified_files`: a `git log` failure
(`CalledProcessError`, modelled as `none` in place of the captured stdout)
is caught and degrades to no files; otherwise the unique non-blank lines of
the output with a recognized extension. -/
def getModifiedFiles (gitStdout : Option String) : List String :=
  match gitStdout with
  | none => []
  | some out =>
    let files := dedupFirst [] (pySplitChar '\n' (pyStrip out))
    files.filter (fun f =>
      !f.isEmpty && relevantExtensions.contains (pathSuffix f))

/-- External collaborators of one updater run: the `git log` subprocess for
a given `--since` watermark (`none` = `CalledProcessError`), the filesystem
existence check, the document loader, and the embedding generator. -/
structure UpdateEnv where
  gitRun : String → Option String
  fileExists : String → Bool
  loadDoc : String → Option (String × Metadata)
  processDocs : List (String × Metadata) → List Chunk
  attachEmbeddings : List Chunk → List EChunk

/-- Everything an updater run can read or write: the in-memory store, the
hybrid searcher's tokenized corpus, the persisted index artifacts, the
persisted BM25 bundle, and the watermark file. -/
structure UpdaterState where
  store : VectorStore
  tokenizedCorpus : Option (List (List String))
  savedIndex : Option IndexDir
  savedBM25 : Option (List (List String))
  watermark : Option String
deriving Repr

/-- `IncrementalUpdater._get_last_update`. -/
def updaterLastUpdate (st : UpdaterState) : String :=
  st.watermark.getD "30 days ago"

/-- `HybridSearch.build_bm25_index`'s tokenization of the store's corpus. -/
def tokenizeCorpus (s : VectorStore) : List (List String) :=
  s.chunks.map (fun c => pyLowerSplit c.content)

/-- `IncrementalUpdater.update`: enumerate files changed since the
watermark; with none (including the degraded git-failure case) print and
return — a successful no-op.  Otherwise load and re-chunk the surviving
files (another early successful return when none load), embed, append to the
vector store, rebuild BM25 over the whole corpus, persist both indexes and
only then overwrite the watermark.  The boolean is `false` iff the run
raised. -/
def updaterUpdate (env : UpdateEnv) (st : UpdaterState) (now : String) :
    UpdaterState × Bool :=
  let lastUpdate := updaterLastUpdate st
  let modifiedFiles := getModifiedFiles (env.gitRun lastUpdate)
  if modifiedFiles.isEmpty then (st, true)
  else
    let newDocuments := modifiedFiles.filterMap (fun f =>
      if env.fileExists f then env.loadDoc f else none)
    if newDocuments.isEmpty then (st, true)
    else
      let newChunks := env.processDocs newDocuments
      let chunksWithEmbeddings := env.attachEmbeddings newChunks
      match st.store.add_chunks chunksWithEmbeddings with
      | .error _ => (st, false)
      | .ok store' =>
        let tok := tokenizeCorpus store'
        (⟨store', some tok, some store'.save, some tok, some now⟩, true)

/-! ## Derived definitions used by the theorems -/

/-- The result dict `VectorStore.search` builds for an in-range faiss
candidate `(label, distance)`. -/
def mkCandResult (s : VectorStore) (c : Int × ℚ) : SearchResult :=
  ⟨(pyGet s.chunks c.1).getD default, (pyGet s.metadata_index c.1).getD default,
    c.2, 1 / (1 + c.2)⟩

/-- The result dict built for a faiss padding slot `(-1, FLT_MAX)` on a
non-empty store: Python's negative indexing resolves label -1 to the last
element of both parallel lists. -/
def padResult (s : VectorStore) : SearchResult :=
  ⟨s.chunks.getLast?.getD default, s.metadata_index.getLast?.getD default,
    faissPadDistance, 1 / (1 + faissPadDistance)⟩

/-- The value `normalizeBM25` returns on a non-empty score array. -/
def normValues (scores : List ℚ) : List ℚ :=
  match scores.max? with
  | none => scores
  | some m => if 0 < m then scores.map (· / m) else scores

/-- The first index of a stored chunk with the given content; the recursive
mirror of `findChunkIndex` used by the proofs. -/
def firstContentIdx (stored : List Chunk) (content : String) : Option Nat :=
  match stored with
  | [] => none
  | ch :: rest =>
    if ch.content = content then some 0
    else (firstContentIdx rest content).map (· + 1)

/-- The distance-sorted candidate list underlying `faissSearch`, before
truncation and padding. -/
def sortedCandidates (s : VectorStore) (q : List ℚ) : List (Int × ℚ) :=
  stableSort (fun a b => decide (a.2 ≤ b.2))
    (s.index.vectors.enum.map (fun p => ((p.1 : Int), sqDist q p.2)))

/-! ## Lemmas: stable sorting -/

theorem insertSorted_perm (le : α → α → Bool) (x : α) (l : List α) :
    (insertSorted le x l).Perm (x :: l) := by
  induction l with
  | nil => simp [insertSorted]
  | cons y ys ih =>
    simp only [insertSorted]
    by_cases h : le x y
    · simp [h]
    · simp only [h, if_neg]
      exact ((ih.cons y).trans (List.Perm.swap x y ys)).symm.symm

theorem stableSort_perm (le : α → α → Bool) (l : List α) :
    (stableSort le l).Perm l := by
  induction l with
  | nil => simp [stableSort]
  | cons x xs ih =>
    exact (insertSorted_perm le x (stableSort le xs)).trans (ih.cons x)

theorem insertSorted_pairwise (le : α → α → Bool)
    (htot : ∀ a b, le a b = true ∨ le b a = true)
    (htrans : ∀ a b c, le a b = true → le b c = true → le a c = true)
    (x : α) : ∀ l : List α, l.Pairwise (fun a b => le a b = true) →
    (insertSorted le x l).Pairwise (fun a b => le a b = true) := by
  intro l
  induction l with
  | nil => intro _; simp [insertSorted]
  | cons y ys ih =>
    intro hl
    rcases hl with _ | ⟨hy, hys⟩
    by_cases h : le x y = true
    · rw [insertSorted, if_pos h]
      refine List.Pairwise.cons ?_ (List.Pairwise.cons hy hys)
      intro z hz
      rcases List.mem_cons.mp hz with rfl | hz
      · exact h
      · exact htrans x y z h (hy z hz)
    · rw [insertSorted, if_neg h]
      refine List.Pairwise.cons ?_ (ih hys)
      intro z hz
      have hz' := (insertSorted_perm le x ys).mem_iff.mp hz
      rcases List.mem_cons.mp hz' with rfl | hz'
      · rcases htot y z with hyz | hzy
        · exact hyz
        · exact absurd hzy h
      · exact hy z hz'

theorem stableSort_pairwise (le : α → α → Bool)
    (htot : ∀ a b, le a b = true ∨ le b a = true)
    (htrans : ∀ a b c, le a b = true → le b c = true → le a c = true)
    (l : List α) : (stableSort le l).Pairwise (fun a b => le a b = true) := by
  induction l with
  | nil => simp [stableSort]
  | cons x xs ih =>
    exact insertSorted_pairwise le htot htrans x (stableSort le xs) ih

theorem stableSort_eq_of_pairwise (le : α → α → Bool) :
    ∀ l : List α, l.Pairwise (fun a b => le a b = true) → stableSort le l = l := by
  intro l
  induction l with
  | nil => intro _; rfl
  | cons x xs ih =>
    intro hl
    rcases hl with _ | ⟨hx, hxs⟩
    simp only [stableSort, ih hxs]
    cases xs with
    | nil => rfl
    | cons y ys => simp [insertSorted, hx y (by simp)]

/-! ## Lemmas: Python indexing -/

theorem pyGet_nonneg (l : List α) (i : Int) (h : 0 ≤ i) :
    pyGet l i = l.get? i.toNat := by
  simp only [pyGet]
  rw [if_neg (show ¬ i < 0 by omega), if_pos h]

theorem pyGet_neg_one (l : List α) : pyGet l (-1) = l.getLast? := by
  cases l with
  | nil => simp [pyGet]
  | cons x xs =>
    simp only [pyGet]
    rw [if_pos (show (-1 : Int) < 0 by omega)]
    have h1 : ((x :: xs).length : Int) + -1 = (xs.length : Int) := by
      simp [List.length_cons]
    rw [h1, if_pos (Int.natCast_nonneg _), Int.toNat_natCast,
      List.getLast?_eq_getElem?, List.get?_eq_getElem?]
    simp [List.length_cons]

/-! ## Lemmas: add_chunks -/

theorem mapM_embedding_ok (cs : List EChunk)
    (h : ∀ c ∈ cs, c.embedding.isSome) :
    cs.mapM (fun c => match c.embedding with
      | some e => Except.ok (ε := Unit) e
      | none => Except.error ()) = .ok (cs.filterMap (·.embedding)) := by
  rw [← List.mapM'_eq_mapM]
  induction cs with
  | nil => rfl
  | cons c rest ih =>
    rcases Option.isSome_iff_exists.mp (h c (by simp)) with ⟨e, he⟩
    rw [List.mapM', List.filterMap_cons]
    simp only [he, ih (fun c hc => h c (by simp [hc]))]
    rfl

theorem mapM_embedding_err (cs : List EChunk)
    (h : ∃ c ∈ cs, c.embedding = none) :
    cs.mapM (fun c => match c.embedding with
      | some e => Except.ok (ε := Unit) e
      | none => Except.error ()) = .error () := by
  rw [← List.mapM'_eq_mapM]
  induction cs with
  | nil => simp at h
  | cons c rest ih =>
    rw [List.mapM']
    rcases h with ⟨c', hc', hnone⟩
    rcases List.mem_cons.mp hc' with rfl | hmem
    · rw [hnone]; rfl
    · cases he : c.embedding with
      | none => rfl
      | some e => rw [ih ⟨c', hmem, hnone⟩]; rfl

theorem filterMap_embedding_length (cs : List EChunk)
    (h : ∀ c ∈ cs, c.embedding.isSome) :
    (cs.filterMap (·.embedding)).length = cs.length := by
  induction cs with
  | nil => rfl
  | cons c rest ih =>
    rcases Option.isSome_iff_exists.mp (h c (by simp)) with ⟨e, he⟩
    rw [List.filterMap_cons]
    simp [he, ih (fun c hc => h c (by simp [hc]))]

theorem addChunks_ok (s : VectorStore) (cs : List EChunk)
    (h : ∀ c ∈ cs, ∃ e, c.embedding = some e ∧ e.length = s.index.d)
    (hne : cs ≠ []) :
    s.add_chunks cs = .ok
      ⟨s.dimension, ⟨s.index.d, s.index.vectors ++ cs.filterMap (·.embedding)⟩,
        s.chunks ++ cs.map EChunk.strip,
        s.metadata_index ++ cs.map (·.metadata)⟩ := by
  have hsome : ∀ c ∈ cs, c.embedding.isSome := by
    intro c hc
    rcases h c hc with ⟨e, he, _⟩
    simp [he]
  unfold VectorStore.add_chunks
  rw [mapM_embedding_ok cs hsome]
  have hlen : (cs.filterMap (·.embedding)).length = cs.length :=
    filterMap_embedding_length cs hsome
  have hnotempty : (cs.filterMap (·.embedding)).isEmpty = false := by
    rw [Bool.eq_false_iff]
    intro hemp
    have h0 := List.isEmpty_iff_length_eq_zero.mp hemp
    rw [hlen] at h0
    exact hne (List.length_eq_zero.mp h0)
  have hdim : (cs.filterMap (·.embedding)).any
      (fun e => decide (e.length ≠ s.index.d)) = false := by
    rw [List.any_eq_false]
    intro e he
    rcases List.mem_filterMap.mp he with ⟨c, hc, hce⟩
    rcases h c hc with ⟨e', he', hlen'⟩
    rw [he'] at hce
    cases Option.some.inj hce
    simp [hlen']
  simp only [hnotempty, hdim, Bool.false_eq_true, if_false]

theorem addChunks_nil (s : VectorStore) : s.add_chunks [] = .error () := rfl

theorem applyAdd_ok (s : VectorStore) (cs : List EChunk)
    (h : ∀ c ∈ cs, ∃ e, c.embedding = some e ∧ e.length = s.index.d)
    (hne : cs ≠ []) :
    applyAdd s cs =
      ⟨s.dimension, ⟨s.index.d, s.index.vectors ++ cs.filterMap (·.embedding)⟩,
        s.chunks ++ cs.map EChunk.strip,
        s.metadata_index ++ cs.map (·.metadata)⟩ := by
  unfold applyAdd
  rw [addChunks_ok s cs h hne]

theorem applyAdd_inv (s : VectorStore) (cs : List EChunk) (hInv : s.Inv)
    (h : ∀ c ∈ cs, ∃ e, c.embedding = some e ∧ e.length = s.index.d) :
    (applyAdd s cs).Inv ∧ (applyAdd s cs).index.d = s.index.d := by
  cases hne : cs with
  | nil =>
    unfold applyAdd
    rw [addChunks_nil]
    exact ⟨hInv, rfl⟩
  | cons c rest =>
    rw [← hne]
    rw [applyAdd_ok s cs h (by simp [hne])]
    have hsome : ∀ c ∈ cs, c.embedding.isSome := by
      intro c hc
      rcases h c hc with ⟨e, he, _⟩
      simp [he]
    refine ⟨⟨?_, ?_⟩, rfl⟩
    · simp [VectorStore.Inv, filterMap_embedding_length cs hsome, hInv.1]
    · simp [VectorStore.Inv, hInv.2]

theorem runAdds_inv (calls : List (List EChunk)) :
    ∀ s : VectorStore, s.Inv →
    (∀ cs ∈ calls, ∀ c ∈ cs, ∃ e, c.embedding = some e ∧ e.length = s.index.d) →
    (runAdds s calls).Inv := by
  induction calls with
  | nil => intro s hInv _; exact hInv
  | cons cs rest ih =>
    intro s hInv hGood
    have hcs := hGood cs (by simp)
    have h1 := applyAdd_inv s cs hInv hcs
    have : runAdds s (cs :: rest) = runAdds (applyAdd s cs) rest := rfl
    rw [this]
    refine ih (applyAdd s cs) h1.1 ?_
    intro cs' hcs' c hc
    rw [h1.2]
    exact hGood cs' (by simp [hcs']) c hc

/-- C1: every sequence of `add_chunks` calls whose chunks all carry an
embedding of the index's dimension keeps the three parallel sequences of the
store equal in length (after every prefix of the sequence), and each
individual such call appends its batch to all three structures at once. -/
theorem c1_parallel_list_invariant (s : VectorStore) (calls : List (List EChunk))
    (hInv : s.Inv)
    (hGood : ∀ cs ∈ calls, ∀ c ∈ cs,
      ∃ e, c.embedding = some e ∧ e.length = s.index.d) :
    (∀ pre, pre.IsPrefix calls → (runAdds s pre).Inv) ∧
    (∀ (t : VectorStore) (cs : List EChunk),
      (∀ c ∈ cs, ∃ e, c.embedding = some e ∧ e.length = t.index.d) → cs ≠ [] →
      (∃ t', t.add_chunks cs = .ok t') ∧
      (applyAdd t cs).index.vectors =
        t.index.vectors ++ cs.filterMap (·.embedding) ∧
      (applyAdd t cs).chunks = t.chunks ++ cs.map EChunk.strip ∧
      (applyAdd t cs).metadata_index =
        t.metadata_index ++ cs.map (·.metadata)) := by
  constructor
  · intro pre hpre
    exact runAdds_inv pre s hInv
      (fun cs hcs => hGood cs (hpre.subset hcs))
  · intro t cs h hne
    refine ⟨⟨_, addChunks_ok t cs h hne⟩, ?_, ?_, ?_⟩ <;>
      rw [applyAdd_ok t cs h hne]

/-- C1 witness: a concrete two-call run on a freshly initialized
2-dimensional store. -/
theorem c1_parallel_list_invariant_witness :
    (runAdds (VectorStore.init 2)
      [[⟨"a", 0, [], some [1, 2]⟩], [⟨"b", 1, [], some [3, 4]⟩]]).Inv ∧
    (applyAdd (VectorStore.init 2) [⟨"a", 0, [], some [1, 2]⟩]).chunks =
      [⟨"a", 0, []⟩] := by
  have h := c1_parallel_list_invariant (VectorStore.init 2)
    [[⟨"a", 0, [], some [1, 2]⟩], [⟨"b", 1, [], some [3, 4]⟩]]
    (by decide) (by decide)
  refine ⟨h.1 _ (List.prefix_refl _), ?_⟩
  have h2 := (h.2 (VectorStore.init 2) [⟨"a", 0, [], some [1, 2]⟩]
    (by decide) (by decide)).2.2.1
  rw [h2]
  rfl

/-- C7: an `add_chunks` call in which some chunk lacks an embedding raises
before mutating anything: the flat index, the chunk list and the metadata
list are all unchanged afterwards. -/
theorem c7_add_without_embedding_aborts (s : VectorStore) (cs : List EChunk)
    (h : ∃ c ∈ cs, c.embedding = none) :
    s.add_chunks cs = .error () ∧
    applyAdd s cs = s ∧
    (applyAdd s cs).index.vectors = s.index.vectors ∧
    (applyAdd s cs).chunks = s.chunks ∧
    (applyAdd s cs).metadata_index = s.metadata_index := by
  have herr : s.add_chunks cs = .error () := by
    unfold VectorStore.add_chunks
    rw [mapM_embedding_err cs h]
  have happ : applyAdd s cs = s := by
    unfold applyAdd
    rw [herr]
  exact ⟨herr, happ, by rw [happ], by rw [happ], by rw [happ]⟩

/-! ## Lemmas: the search loop -/

theorem searchLoop_filter (s : VectorStore) (f : Metadata) (k : Nat) :
    ∀ (cands : List (Int × ℚ)) (acc res : List SearchResult),
      searchLoop s (some f) k cands acc = .ok res →
      ∀ r ∈ res, r ∈ acc ∨ matchesFilters r.metadata f = true := by
  intro cands
  induction cands with
  | nil =>
    intro acc res h r hr
    simp only [searchLoop] at h
    cases h
    exact Or.inl hr
  | cons c rest ih =>
    intro acc res h r hr
    rcases c with ⟨idx, dist⟩
    simp only [searchLoop] at h
    by_cases hguard : (s.chunks.length : Int) ≤ idx
    · rw [if_pos hguard] at h
      exact ih acc res h r hr
    · rw [if_neg hguard] at h
      rcases hpc : pyGet s.chunks idx with _ | chunk <;>
        rcases hpm : pyGet s.metadata_index idx with _ | md <;>
        rw [hpc, hpm] at h <;> dsimp only at h
      · cases h
      · cases h
      · cases h
      · by_cases hmf : matchesFilters md f = true
        · rw [if_neg (by simp [hmf])] at h
          by_cases hk : k ≤
            (acc ++ [(⟨chunk, md, dist, 1 / (1 + dist)⟩ : SearchResult)]).length
          · rw [if_pos hk] at h
            cases h
            rcases List.mem_append.mp hr with hr' | hr'
            · exact Or.inl hr'
            · rcases List.mem_singleton.mp hr' with rfl
              exact Or.inr hmf
          · rw [if_neg hk] at h
            rcases ih _ res h r hr with hr' | hr'
            · rcases List.mem_append.mp hr' with hr'' | hr''
              · exact Or.inl hr''
              · rcases List.mem_singleton.mp hr'' with rfl
                exact Or.inr hmf
            · exact Or.inr hr'
        · rw [if_pos (by simp [Bool.not_eq_true] at hmf; simp [hmf])] at h
          exact ih acc res h r hr

theorem searchLoop_real (s : VectorStore) (k : Nat) :
    ∀ (cands : List (Int × ℚ)) (acc : List SearchResult)
      (rest : List (Int × ℚ)),
      (∀ c ∈ cands, 0 ≤ c.1 ∧ c.1.toNat < s.chunks.length ∧
        c.1.toNat < s.metadata_index.length) →
      acc.length + cands.length < k →
      searchLoop s none k (cands ++ rest) acc =
        searchLoop s none k rest (acc ++ cands.map (mkCandResult s)) := by
  intro cands
  induction cands with
  | nil => intro acc rest _ _; simp
  | cons c cs ih =>
    intro acc rest hc hcap
    rcases c with ⟨idx, dist⟩
    rcases hc ⟨idx, dist⟩ (by simp) with ⟨hpos, hlt, hltm⟩
    simp only [List.length_cons] at hcap
    have hguard : ¬ (s.chunks.length : Int) ≤ idx := by omega
    have hpc : pyGet s.chunks idx = some (mkCandResult s (idx, dist)).chunk := by
      show pyGet s.chunks idx = some ((pyGet s.chunks idx).getD default)
      rw [pyGet_nonneg _ _ hpos, List.get?_eq_get hlt]
      rfl
    have hpm : pyGet s.metadata_index idx =
        some (mkCandResult s (idx, dist)).metadata := by
      show pyGet s.metadata_index idx =
        some ((pyGet s.metadata_index idx).getD default)
      rw [pyGet_nonneg _ _ hpos, List.get?_eq_get hltm]
      rfl
    rw [List.cons_append]
    simp only [searchLoop]
    rw [if_neg hguard, hpc, hpm]
    dsimp only
    simp only [Bool.false_eq_true, if_false]
    rw [show (⟨(mkCandResult s (idx, dist)).chunk,
        (mkCandResult s (idx, dist)).metadata, dist,
        1 / (1 + dist)⟩ : SearchResult) = mkCandResult s (idx, dist) from rfl]
    have hbreak : ¬ k ≤ (acc ++ [mkCandResult s (idx, dist)]).length := by
      simp only [List.length_append, List.length_cons, List.length_nil]
      omega
    rw [if_neg hbreak]
    have hrec := ih (acc ++ [mkCandResult s (idx, dist)]) rest
      (fun c hc' => hc c (by simp [hc']))
      (by
        simp only [List.length_append, List.length_cons, List.length_nil]
        omega)
    rw [hrec]
    simp

theorem searchLoop_take (s : VectorStore) (k : Nat) :
    ∀ (cands : List (Int × ℚ)) (acc : List SearchResult),
      (∀ c ∈ cands, 0 ≤ c.1 ∧ c.1.toNat < s.chunks.length ∧
        c.1.toNat < s.metadata_index.length) →
      acc.length < k →
      searchLoop s none k cands acc =
        .ok (acc ++ (cands.take (k - acc.length)).map (mkCandResult s)) := by
  intro cands
  induction cands with
  | nil => intro acc _ _; simp [searchLoop]
  | cons c cs ih =>
    intro acc hc hcap
    rcases c with ⟨idx, dist⟩
    rcases hc ⟨idx, dist⟩ (by simp) with ⟨hpos, hlt, hltm⟩
    have hguard : ¬ (s.chunks.length : Int) ≤ idx := by omega
    have hpc : pyGet s.chunks idx = some (mkCandResult s (idx, dist)).chunk := by
      show pyGet s.chunks idx = some ((pyGet s.chunks idx).getD default)
      rw [pyGet_nonneg _ _ hpos, List.get?_eq_get hlt]
      rfl
    have hpm : pyGet s.metadata_index idx =
        some (mkCandResult s (idx, dist)).metadata := by
      show pyGet s.metadata_index idx =
        some ((pyGet s.metadata_index idx).getD default)
      rw [pyGet_nonneg _ _ hpos, List.get?_eq_get hltm]
      rfl
    simp only [searchLoop]
    rw [if_neg hguard, hpc, hpm]
    dsimp only
    simp only [Bool.false_eq_true, if_false]
    rw [show (⟨(mkCandResult s (idx, dist)).chunk,
        (mkCandResult s (idx, dist)).metadata, dist,
        1 / (1 + dist)⟩ : SearchResult) = mkCandResult s (idx, dist) from rfl]
    by_cases hk : k ≤ acc.length + 1
    · rw [if_pos (by
        simp only [List.length_append, List.length_cons, List.length_nil]
        omega)]
      have hkeq : k - acc.length = 1 := by omega
      rw [hkeq]
      simp
    · rw [if_neg (by
        simp only [List.length_append, List.length_cons, List.length_nil]
        omega)]
      have hrec := ih (acc ++ [mkCandResult s (idx, dist)])
        (fun c hc' => hc c (by simp [hc']))
        (by
          simp only [List.length_append, List.length_cons, List.length_nil]
          omega)
      rw [hrec]
      have hkm : k - acc.length = (k - (acc.length + 1)) + 1 := by omega
      rw [hkm]
      simp [List.take_succ_cons]

theorem searchLoop_pad (s : VectorStore) (k : Nat)
    (hn : s.chunks ≠ []) (hm : s.metadata_index ≠ []) :
    ∀ (m : Nat) (acc : List SearchResult), acc.length + m = k → 0 < m →
      searchLoop s none k
        (List.replicate m ((-1 : Int), faissPadDistance)) acc =
      .ok (acc ++ List.replicate m (padResult s)) := by
  intro m
  induction m with
  | zero => intro acc _ h0; cases h0
  | succ m ih =>
    intro acc hcap _
    rw [List.replicate_succ]
    simp only [searchLoop]
    rw [if_neg (by
      have := List.length_pos.mpr hn
      omega)]
    have hpc : pyGet s.chunks (-1) = some (padResult s).chunk := by
      show pyGet s.chunks (-1) = some (s.chunks.getLast?.getD default)
      rw [pyGet_neg_one, List.getLast?_eq_getLast_of_ne_nil hn]
      rfl
    have hpm : pyGet s.metadata_index (-1) = some (padResult s).metadata := by
      show pyGet s.metadata_index (-1) =
        some (s.metadata_index.getLast?.getD default)
      rw [pyGet_neg_one, List.getLast?_eq_getLast_of_ne_nil hm]
      rfl
    rw [hpc, hpm]
    dsimp only
    simp only [Bool.false_eq_true, if_false]
    rw [show (⟨(padResult s).chunk, (padResult s).metadata, faissPadDistance,
        1 / (1 + faissPadDistance)⟩ : SearchResult) = padResult s from rfl]
    by_cases hz : m = 0
    · subst hz
      rw [if_pos (by
        simp only [List.length_append, List.length_cons, List.length_nil]
        omega)]
      simp
    · rw [if_neg (by
        simp only [List.length_append, List.length_cons, List.length_nil]
        omega)]
      have hrec := ih (acc ++ [padResult s])
        (by
          simp only [List.length_append, List.length_cons, List.length_nil]
          omega)
        (by omega)
      rw [hrec]
      simp [List.replicate_succ]

theorem faissSearch_mem_of_inv (s : VectorStore) (q : List ℚ) (K : Nat)
    (hInv : s.Inv) :
    ∀ c ∈ faissSearch s.index q K,
      (0 ≤ c.1 ∧ c.1.toNat < s.chunks.length ∧
        c.1.toNat < s.metadata_index.length) ∨
      c = ((-1 : Int), faissPadDistance) := by
  intro c hc
  simp only [faissSearch] at hc
  rcases List.mem_append.mp hc with hmem | hmem
  · left
    have hmem' := (stableSort_perm _ _).mem_iff.mp (List.mem_of_mem_take hmem)
    rcases List.mem_map.mp hmem' with ⟨p, hp, rfl⟩
    have hget := List.mem_enum_iff_getElem?.mp hp
    have hlt : p.1 < s.index.vectors.length := by
      rcases List.getElem?_eq_some.mp hget with ⟨h, _⟩
      exact h
    rw [hInv.1] at hlt
    refine ⟨Int.natCast_nonneg _, by simpa using hlt, ?_⟩
    rw [← hInv.2]
    simpa using hlt
  · right
    exact List.eq_of_mem_replicate hmem

/-! ## Claim C3: filter soundness -/

/-- C3: a `VectorStore.search` call filtered by `{'module': x}` never
returns a result whose metadata carries a module value different from `x`
(results whose metadata lacks the key are allowed through by design). -/
theorem c3_filter_soundness (s : VectorStore) (q : List ℚ) (k : Nat)
    (x : String) (res : List SearchResult)
    (h : s.search q k (some [("module", Val.str x)]) = .ok res) :
    ∀ r ∈ res, ∀ v, r.metadata.lookup "module" = some v → v = Val.str x := by
  intro r hr v hv
  simp only [VectorStore.search] at h
  rcases searchLoop_filter s [("module", Val.str x)] k _ [] res h r hr with
    hin | hpass
  · cases hin
  · simp only [matchesFilters, List.all_cons, List.all_nil,
      Bool.and_true] at hpass
    rw [hv] at hpass
    simpa using hpass

/-- C3 witness: a one-chunk store whose chunk is tagged `module = "x"`,
searched with the filter `{'module': 'x'}`. -/
theorem c3_filter_soundness_witness : Val.str "x" = Val.str "x" :=
  c3_filter_soundness
    ⟨1, ⟨1, [[0]]⟩, [⟨"a", 0, [("module", Val.str "x")]⟩],
      [[("module", Val.str "x")]]⟩
    [0] 1 "x"
    [⟨⟨"a", 0, [("module", Val.str "x")]⟩, [("module", Val.str "x")], 0, 1⟩]
    (by
      simp only [VectorStore.search]
      norm_num [faissSearch, stableSort, insertSorted, sqDist, searchLoop,
        pyGet, matchesFilters, faissPadDistance])
    ⟨⟨"a", 0, [("module", Val.str "x")]⟩, [("module", Val.str "x")], 0, 1⟩
    (by decide) (Val.str "x") (by decide)

/-! ## Claim C10: faiss -1 padding resolves to the last stored chunk -/

/-- C10: when `k` exceeds the number of stored vectors (no filters), faiss
pads its output with label -1 and an extreme distance; the guard only skips
labels `>= len(chunks)`, so -1 slips through, Python's negative indexing
resolves it to the final stored chunk, and search returns exactly `k`
results — the tail being spurious copies of the last chunk with distance
FLT_MAX — instead of fewer than `k`. -/
theorem c10_padding_spurious_result (s : VectorStore) (q : List ℚ) (k : Nat)
    (hInv : s.Inv) (hn : 0 < s.chunks.length) (hk : s.chunks.length < k) :
    ∃ realRes : List SearchResult,
      realRes.length = s.chunks.length ∧
      s.search q k none =
        .ok (realRes ++
          List.replicate (k - s.chunks.length) (padResult s)) ∧
      (realRes ++ List.replicate (k - s.chunks.length) (padResult s)).length
        = k ∧
      (padResult s).chunk = s.chunks.getLast?.getD default ∧
      (padResult s).score = faissPadDistance := by
  have hnv : s.index.vectors.length = s.chunks.length := hInv.1
  have hmlen : s.metadata_index.length = s.chunks.length := hInv.2.symm
  refine ⟨(stableSort (fun a b => decide (a.2 ≤ b.2))
    (s.index.vectors.enum.map (fun p => ((p.1 : Int), sqDist q p.2)))).map
      (mkCandResult s), ?_, ?_, ?_, rfl, rfl⟩
  case _ =>
    rw [List.length_map, (stableSort_perm _ _).length_eq, List.length_map,
      List.enum_length, hnv]
  case _ =>
    have hslen : (stableSort (fun a b => decide (a.2 ≤ b.2))
        (s.index.vectors.enum.map (fun p => ((p.1 : Int), sqDist q p.2)))).length
        = s.chunks.length := by
      rw [(stableSort_perm _ _).length_eq, List.length_map,
        List.enum_length, hnv]
    have hbound := faissSearch_mem_of_inv s q k hInv
    have htk : (stableSort (fun a b => decide (a.2 ≤ b.2))
        (s.index.vectors.enum.map (fun p => ((p.1 : Int), sqDist q p.2)))).length
        ≤ k := by
      rw [hslen]
      omega
    have hreal : ∀ c ∈ stableSort (fun a b => decide (a.2 ≤ b.2))
        (s.index.vectors.enum.map (fun p => ((p.1 : Int), sqDist q p.2))),
        0 ≤ c.1 ∧ c.1.toNat < s.chunks.length ∧
          c.1.toNat < s.metadata_index.length := by
      intro c hc
      rcases hbound c (by
        simp only [faissSearch, hnv]
        exact List.mem_append.mpr (Or.inl (by
          rw [List.take_of_length_le htk]
          exact hc))) with hreal | hpad
      · exact hreal
      · exfalso
        have := (stableSort_perm _ _).mem_iff.mp hc
        rcases List.mem_map.mp this with ⟨p, _, hpc⟩
        rw [hpad] at hpc
        have : ((p.1 : Int)) = -1 := congrArg Prod.fst hpc
        omega
    have hcap1 : ([] : List SearchResult).length +
        (stableSort (fun a b => decide (a.2 ≤ b.2))
          (s.index.vectors.enum.map
            (fun p => ((p.1 : Int), sqDist q p.2)))).length < k := by
      rw [List.length_nil, Nat.zero_add, hslen]
      omega
    have hcap2 : (([] : List SearchResult) ++
        (stableSort (fun a b => decide (a.2 ≤ b.2))
          (s.index.vectors.enum.map
            (fun p => ((p.1 : Int), sqDist q p.2)))).map
              (mkCandResult s)).length + (k - s.chunks.length) = k := by
      rw [List.nil_append, List.length_map, hslen]
      omega
    have hm0 : 0 < k - s.chunks.length := by omega
    have hcne : s.chunks ≠ [] := by
      intro hnil
      rw [hnil] at hn
      simp at hn
    have hmne : s.metadata_index ≠ [] := by
      intro hnil
      have hlz := congrArg List.length hnil
      rw [hmlen, List.length_nil] at hlz
      omega
    simp only [VectorStore.search, Option.isSome_none, Bool.false_eq_true,
      if_false]
    simp only [faissSearch, hnv]
    rw [List.take_of_length_le htk]
    rw [searchLoop_real s k _ [] _ hreal hcap1]
    rw [searchLoop_pad s k hcne hmne (k - s.chunks.length) _ hcap2 hm0]
    simp
  case _ =>
    rw [List.length_append, List.length_map, List.length_replicate,
      (stableSort_perm _ _).length_eq, List.length_map, List.enum_length, hnv]
    omega

/-- C10 witness: a one-vector store searched with `k = 3`: three results
come back, the last two being FLT_MAX-distance copies of the only chunk. -/
theorem c10_padding_spurious_result_witness :
    ∃ realRes : List SearchResult,
      realRes.length =
        (VectorStore.mk 1 ⟨1, [[0]]⟩ [⟨"a", 0, []⟩] [[]]).chunks.length ∧
      (VectorStore.mk 1 ⟨1, [[0]]⟩ [⟨"a", 0, []⟩] [[]]).search [0] 3 none =
        .ok (realRes ++ List.replicate
          (3 - (VectorStore.mk 1 ⟨1, [[0]]⟩ [⟨"a", 0, []⟩] [[]]).chunks.length)
          (padResult (VectorStore.mk 1 ⟨1, [[0]]⟩ [⟨"a", 0, []⟩] [[]]))) ∧
      (realRes ++ List.replicate
          (3 - (VectorStore.mk 1 ⟨1, [[0]]⟩ [⟨"a", 0, []⟩] [[]]).chunks.length)
          (padResult (VectorStore.mk 1 ⟨1, [[0]]⟩ [⟨"a", 0, []⟩] [[]]))).length
        = 3 ∧
      (padResult (VectorStore.mk 1 ⟨1, [[0]]⟩ [⟨"a", 0, []⟩] [[]])).chunk =
        (VectorStore.mk 1 ⟨1, [[0]]⟩
          [⟨"a", 0, []⟩] [[]]).chunks.getLast?.getD default ∧
      (padResult (VectorStore.mk 1 ⟨1, [[0]]⟩ [⟨"a", 0, []⟩] [[]])).score =
        faissPadDistance :=
  c10_padding_spurious_result (VectorStore.mk 1 ⟨1, [[0]]⟩ [⟨"a", 0, []⟩] [[]])
    [0] 3 (by decide) (by decide) (by decide)

/-! ## Lemmas: chunk re-identification by content -/

theorem findChunkIndex_aux (c : Chunk) (stored : List Chunk) :
    ∀ j, ((stored.enumFrom j).find?
        (fun p => p.2.content == c.content)).map (·.1)
      = (firstContentIdx stored c.content).map (· + j) := by
  induction stored with
  | nil => intro j; rfl
  | cons ch rest ih =>
    intro j
    rw [List.enumFrom_cons]
    by_cases h : ch.content = c.content
    · rw [List.find?_cons_of_pos _ (by simpa using h)]
      unfold firstContentIdx
      rw [if_pos h]
      simp
    · rw [List.find?_cons_of_neg _ (by simpa using h)]
      unfold firstContentIdx
      rw [if_neg h, ih (j + 1)]
      cases firstContentIdx rest c.content with
      | none => rfl
      | some i => simp; omega

theorem findChunkIndex_eq_first (stored : List Chunk) (c : Chunk) :
    findChunkIndex stored c = firstContentIdx stored c.content := by
  unfold findChunkIndex
  have haux := findChunkIndex_aux c stored 0
  have h2 : (firstContentIdx stored c.content).map (· + 0) =
      firstContentIdx stored c.content := by
    cases firstContentIdx stored c.content <;> simp
  exact haux.trans h2

theorem firstContentIdx_spec (content : String) :
    ∀ (stored : List Chunk) (i : Nat),
    firstContentIdx stored content = some i →
    ∃ ch, stored.get? i = some ch ∧ ch.content = content ∧
      ∀ j, j < i → ∀ ch', stored.get? j = some ch' →
        ch'.content ≠ content := by
  intro stored
  induction stored with
  | nil => intro i h; cases h
  | cons ch rest ih =>
    intro i h
    unfold firstContentIdx at h
    by_cases hc : ch.content = content
    · rw [if_pos hc] at h
      cases Option.some.inj h
      exact ⟨ch, rfl, hc, fun j hj => absurd hj (Nat.not_lt_zero j)⟩
    · rw [if_neg hc] at h
      cases hfi : firstContentIdx rest content with
      | none => rw [hfi] at h; cases h
      | some i' =>
        rw [hfi] at h
        have hi : i = i' + 1 := by
          simp at h
          omega
        subst hi
        rcases ih i' hfi with ⟨ch', hget, hcont, hmin⟩
        refine ⟨ch', by simpa using hget, hcont, ?_⟩
        intro j hj ch'' hget''
        cases j with
        | zero =>
          have hcc : ch'' = ch := by
            have := by simpa using hget''
            exact this.symm
          rw [hcc]
          exact hc
        | succ j' =>
          exact hmin j' (by omega) ch'' (by simpa using hget'')

theorem firstContentIdx_none (content : String) :
    ∀ stored : List Chunk, firstContentIdx stored content = none →
      ∀ ch ∈ stored, ch.content ≠ content := by
  intro stored
  induction stored with
  | nil => intro _ ch hch; cases hch
  | cons c rest ih =>
    intro h ch hch
    unfold firstContentIdx at h
    by_cases hc : c.content = content
    · rw [if_pos hc] at h; cases h
    · rw [if_neg hc] at h
      rcases List.mem_cons.mp hch with rfl | hmem
      · exact hc
      · cases hfi : firstContentIdx rest content with
        | none => exact ih hfi ch hmem
        | some i => rw [hfi] at h; cases h

theorem findChunkIndex_congr (stored : List Chunk) (c1 c2 : Chunk)
    (h : c1.content = c2.content) :
    findChunkIndex stored c1 = findChunkIndex stored c2 := by
  rw [findChunkIndex_eq_first, findChunkIndex_eq_first, h]

theorem findChunkIndex_lt (stored : List Chunk) (c : Chunk) (i : Nat)
    (h : findChunkIndex stored c = some i) : i < stored.length := by
  rw [findChunkIndex_eq_first] at h
  rcases firstContentIdx_spec c.content stored i h with ⟨ch, hget, _, _⟩
  exact List.get?_eq_some.mp hget |>.1

theorem findChunkIndex_of_nodup (stored : List Chunk)
    (hnd : (stored.map (·.content)).Nodup) (i : Nat) (ch : Chunk)
    (hget : stored.get? i = some ch) :
    findChunkIndex stored ch = some i := by
  rw [findChunkIndex_eq_first]
  cases hfi : firstContentIdx stored ch.content with
  | none =>
    exfalso
    exact firstContentIdx_none ch.content stored hfi ch
      (List.get?_mem hget) rfl
  | some i' =>
    rcases firstContentIdx_spec ch.content stored i' hfi with
      ⟨ch', hget', hcont, hmin⟩
    have hlt : i < stored.length := List.get?_eq_some.mp hget |>.1
    have hlt' : i' < stored.length := List.get?_eq_some.mp hget' |>.1
    have hij : i' = i := by
      by_contra hne
      have hmapi : (stored.map (·.content)).get? i = some ch.content := by
        rw [List.get?_map, hget]
        rfl
      have hmapi' : (stored.map (·.content)).get? i' = some ch.content := by
        rw [List.get?_map, hget']
        simp [hcont]
      have := List.get?_injective (by simpa using hlt') hnd
        (hmapi'.trans hmapi.symm)
      omega
    rw [hij]

/-! ## Lemmas: the combined-score dict -/

theorem dictWrite_lookup_self (key : Nat) (e : ℚ × SearchResult)
    (t : CombinedTable) : (dictWrite key e t).lookup key = some e := by
  induction t with
  | nil => simp [dictWrite, List.lookup]
  | cons p rest ih =>
    rcases p with ⟨k', e'⟩
    by_cases h : key = k'
    · subst h
      simp [dictWrite, List.lookup]
    · have hb : (key == k') = false := beq_eq_false_iff_ne.mpr h
      simp only [dictWrite, if_neg h, List.lookup, hb, ih]

theorem dictWrite_lookup_ne (key key' : Nat) (e : ℚ × SearchResult)
    (t : CombinedTable) (h : key' ≠ key) :
    (dictWrite key e t).lookup key' = t.lookup key' := by
  induction t with
  | nil =>
    simp [dictWrite, List.lookup, beq_eq_false_iff_ne.mpr h]
  | cons p rest ih =>
    rcases p with ⟨k', v'⟩
    by_cases hk : key = k'
    · subst hk
      unfold dictWrite
      rw [if_pos rfl]
      have hb : (key' == key) = false := beq_eq_false_iff_ne.mpr h
      simp only [List.lookup, hb]
    · unfold dictWrite
      rw [if_neg hk]
      by_cases he : key' = k'
      · subst he
        simp only [List.lookup, beq_self_eq_true]
      · have hb : (key' == k') = false := beq_eq_false_iff_ne.mpr he
        simp only [List.lookup, hb, ih]

theorem dictWrite_mem (key : Nat) (e : ℚ × SearchResult) (t : CombinedTable) :
    ∀ p ∈ dictWrite key e t, p ∈ t ∨ p = (key, e) := by
  induction t with
  | nil =>
    intro p hp
    simp only [dictWrite] at hp
    exact Or.inr (List.mem_singleton.mp hp)
  | cons q rest ih =>
    intro p hp
    rcases q with ⟨k', e'⟩
    by_cases h : key = k'
    · subst h
      simp only [dictWrite, if_pos rfl] at hp
      rcases List.mem_cons.mp hp with rfl | hp'
      · exact Or.inr rfl
      · exact Or.inl (by simp [hp'])
    · simp only [dictWrite, if_neg h] at hp
      rcases List.mem_cons.mp hp with rfl | hp'
      · exact Or.inl (by simp)
      · rcases ih p hp' with hin | hnew
        · exact Or.inl (by simp [hin])
        · exact Or.inr hnew

theorem dictWrite_not_has (key : Nat) (e : ℚ × SearchResult) :
    ∀ t : CombinedTable, dictHas key t = false →
    dictWrite key e t = t ++ [(key, e)] := by
  intro t
  induction t with
  | nil => intro _; rfl
  | cons q rest ih =>
    intro h
    rcases q with ⟨k', e'⟩
    simp only [dictHas, List.any_cons, Bool.or_eq_false_iff,
      decide_eq_false_iff_not] at h
    unfold dictWrite
    rw [if_neg (fun hk : key = k' => h.1 hk.symm)]
    rw [ih h.2]
    simp

theorem dictAddScore_mem (key : Nat) (d : ℚ) (t : CombinedTable) :
    ∀ p ∈ dictAddScore key d t,
      p ∈ t ∨ ∃ p0 ∈ t, p0.1 = key ∧ p = (p0.1, p0.2.1 + d, p0.2.2) := by
  induction t with
  | nil => intro p hp; cases hp
  | cons q rest ih =>
    intro p hp
    rcases q with ⟨k', e'⟩
    by_cases h : key = k'
    · subst h
      simp only [dictAddScore, if_pos rfl] at hp
      rcases List.mem_cons.mp hp with rfl | hp'
      · exact Or.inr ⟨(key, e'), by simp, rfl, rfl⟩
      · exact Or.inl (by simp [hp'])
    · simp only [dictAddScore, if_neg h] at hp
      rcases List.mem_cons.mp hp with rfl | hp'
      · exact Or.inl (by simp)
      · rcases ih p hp' with hin | ⟨p0, hp0, hpk, hpe⟩
        · exact Or.inl (by simp [hin])
        · exact Or.inr ⟨p0, by simp [hp0], hpk, hpe⟩

theorem dictAddScore_zero (key : Nat) (t : CombinedTable) :
    dictAddScore key 0 t = t := by
  induction t with
  | nil => rfl
  | cons q rest ih =>
    rcases q with ⟨k', sc, r⟩
    by_cases h : key = k'
    · subst h
      simp [dictAddScore]
    · simp [dictAddScore, if_neg h, ih]

theorem dictAddScore_lookup_self (key : Nat) (d : ℚ) (t : CombinedTable) :
    (dictAddScore key d t).lookup key =
      (t.lookup key).map (fun e => (e.1 + d, e.2)) := by
  induction t with
  | nil => rfl
  | cons q rest ih =>
    rcases q with ⟨k', e'⟩
    by_cases h : key = k'
    · subst h
      simp [dictAddScore, List.lookup]
    · have hb : (key == k') = false := beq_eq_false_iff_ne.mpr h
      simp only [dictAddScore, if_neg h, List.lookup, hb, ih]

theorem dictAddScore_lookup_ne (key key' : Nat) (d : ℚ) (t : CombinedTable)
    (h : key' ≠ key) :
    (dictAddScore key d t).lookup key' = t.lookup key' := by
  induction t with
  | nil => rfl
  | cons q rest ih =>
    rcases q with ⟨k', e'⟩
    by_cases hk : key = k'
    · subst hk
      unfold dictAddScore
      rw [if_pos rfl]
      have hb : (key' == key) = false := beq_eq_false_iff_ne.mpr h
      cases e' with
      | mk sc r => simp only [List.lookup, hb]
    · unfold dictAddScore
      rw [if_neg hk]
      by_cases he : key' = k'
      · subst he
        simp only [List.lookup, beq_self_eq_true]
      · have hb : (key' == k') = false := beq_eq_false_iff_ne.mpr he
        simp only [List.lookup, hb, ih]

theorem lookup_mem (key : Nat) (v : ℚ × SearchResult) :
    ∀ t : CombinedTable, t.lookup key = some v → (key, v) ∈ t := by
  intro t
  induction t with
  | nil => intro h; cases h
  | cons q rest ih =>
    intro h
    rcases q with ⟨k', v'⟩
    by_cases hk : key = k'
    · subst hk
      simp only [List.lookup, beq_self_eq_true] at h
      cases Option.some.inj h
      exact List.mem_cons_self _ _
    · have hb : (key == k') = false := beq_eq_false_iff_ne.mpr hk
      simp only [List.lookup, hb] at h
      exact List.mem_cons.mpr (Or.inr (ih h))

/-! ## Lemmas: the semantic seeding phase -/

theorem seedSemantic_mem (stored : List Chunk) (alpha : ℚ) :
    ∀ (sem : List SearchResult) (acc : CombinedTable),
    ∀ e ∈ sem.foldl (fun acc r =>
      match findChunkIndex stored r.chunk with
      | some i => dictWrite i (alpha * r.similarity, r) acc
      | none => acc) acc,
    e ∈ acc ∨ ∃ r ∈ sem, e.2.2 = r ∧ e.2.1 = alpha * r.similarity ∧
      findChunkIndex stored r.chunk = some e.1 := by
  intro sem
  induction sem with
  | nil => intro acc e he; exact Or.inl he
  | cons r0 rest ih =>
    intro acc e he
    rw [List.foldl_cons] at he
    cases hfi : findChunkIndex stored r0.chunk with
    | none =>
      rw [hfi] at he
      rcases ih acc e he with hin | ⟨r, hr, h1, h2, h3⟩
      · exact Or.inl hin
      · exact Or.inr ⟨r, by simp [hr], h1, h2, h3⟩
    | some i =>
      rw [hfi] at he
      rcases ih _ e he with hin | ⟨r, hr, h1, h2, h3⟩
      · rcases dictWrite_mem i (alpha * r0.similarity, r0) acc e hin with
          hacc | hnew
        · exact Or.inl hacc
        · subst hnew
          exact Or.inr ⟨r0, by simp, rfl, rfl, hfi⟩
      · exact Or.inr ⟨r, by simp [hr], h1, h2, h3⟩

theorem seedSemantic_mem_main (stored : List Chunk) (alpha : ℚ)
    (sem : List SearchResult) :
    ∀ e ∈ seedSemantic stored alpha sem,
      ∃ r ∈ sem, e.2.2 = r ∧ e.2.1 = alpha * r.similarity ∧
        findChunkIndex stored r.chunk = some e.1 := by
  intro e he
  rcases seedSemantic_mem stored alpha sem [] e he with hin | h
  · cases hin
  · exact h

theorem seedSemantic_lookup_last (stored : List Chunk) (alpha : ℚ)
    (key : Nat) :
    ∀ sem : List SearchResult,
    (seedSemantic stored alpha sem).lookup key =
      ((sem.filter (fun r =>
        decide (findChunkIndex stored r.chunk = some key))).getLast?).map
          (fun r => (alpha * r.similarity, r)) := by
  intro sem
  induction sem using List.reverseRecOn with
  | nil => rfl
  | append_singleton l r0 ih =>
    unfold seedSemantic at *
    rw [List.foldl_concat, List.filter_append]
    cases hfi : findChunkIndex stored r0.chunk with
    | none =>
      simp only [List.filter_cons, List.filter_nil, hfi]
      rw [if_neg (by simp)]
      simpa using ih
    | some key' =>
      by_cases hk : key' = key
      · subst hk
        simp only [hfi]
        rw [dictWrite_lookup_self]
        have hfil : List.filter (fun r =>
            decide (findChunkIndex stored r.chunk = some key')) [r0] = [r0] := by
          simp [List.filter_cons, hfi]
        rw [hfil, List.getLast?_concat]
        rfl
      · simp only [hfi]
        rw [dictWrite_lookup_ne _ _ _ _ (fun h => hk h.symm)]
        have hfil : List.filter (fun r =>
            decide (findChunkIndex stored r.chunk = some key)) [r0] = [] := by
          simp [List.filter_cons, hfi, hk]
        rw [hfil, List.append_nil]
        exact ih

/-! ## Lemmas: the BM25 combination phase -/

theorem bm25Step_mem (s : VectorStore) (alpha : ℚ) (f : Option Metadata)
    (acc : CombinedTable) (p : Nat × ℚ) (acc' : CombinedTable)
    (h : bm25Step s alpha f acc p = .ok acc') :
    ∀ e ∈ acc', e ∈ acc ∨
      (∃ e0 ∈ acc, e.1 = e0.1 ∧ e.2.2 = e0.2.2) ∨
      (∃ md ch, s.metadata_index.get? p.1 = some md ∧
        s.chunks.get? p.1 = some ch ∧
        e = (p.1, (1 - alpha) * p.2, ⟨ch, md, 0, 0⟩) ∧
        (∀ fl, f = some fl → matchesFilters md fl = true)) := by
  intro e he
  unfold bm25Step at h
  by_cases hhas : dictHas p.1 acc
  · rw [if_pos hhas] at h
    cases Except.ok.inj h
    rcases dictAddScore_mem p.1 ((1 - alpha) * p.2) acc e he with hin | hmod
    · exact Or.inl hin
    · rcases hmod with ⟨p0, hp0, _, hpe⟩
      exact Or.inr (Or.inl ⟨p0, hp0, by rw [hpe], by rw [hpe]⟩)
  · rw [if_neg hhas] at h
    by_cases hb : 1 / 10 < p.2
    · rw [if_pos hb] at h
      cases hmd : s.metadata_index.get? p.1 with
      | none => rw [hmd] at h; cases h
      | some md =>
        rw [hmd] at h
        dsimp only at h
        cases f with
        | none =>
          rw [if_neg (by simp)] at h
          cases hch : s.chunks.get? p.1 with
          | none => rw [hch] at h; cases h
          | some ch =>
            rw [hch] at h
            cases Except.ok.inj h
            rcases dictWrite_mem p.1 ((1 - alpha) * p.2, ⟨ch, md, 0, 0⟩)
              acc e he with hin | hnew
            · exact Or.inl hin
            · refine Or.inr (Or.inr ⟨md, ch, rfl, rfl, by rw [hnew], ?_⟩)
              intro fl hf
              cases hf
        | some fl =>
          by_cases hmf : matchesFilters md fl = true
          · rw [if_neg (by simp [hmf])] at h
            cases hch : s.chunks.get? p.1 with
            | none => rw [hch] at h; cases h
            | some ch =>
              rw [hch] at h
              cases Except.ok.inj h
              rcases dictWrite_mem p.1 ((1 - alpha) * p.2, ⟨ch, md, 0, 0⟩)
                acc e he with hin | hnew
              · exact Or.inl hin
              · refine Or.inr (Or.inr ⟨md, ch, rfl, rfl, by rw [hnew], ?_⟩)
                intro fl' hf
                cases Option.some.inj hf
                exact hmf
          · rw [if_pos (by
              simp only [Bool.not_eq_true] at hmf
              simp [hmf])] at h
            cases Except.ok.inj h
            exact Or.inl he
    · rw [if_neg hb] at h
      cases Except.ok.inj h
      exact Or.inl he

theorem bm25Fold_preserve (s : VectorStore) (alpha : ℚ) (f : Option Metadata)
    (P : Nat × ℚ × SearchResult → Prop)
    (hmono : ∀ e e0, e.1 = e0.1 → e.2.2 = e0.2.2 → P e0 → P e)
    (hnew : ∀ (idx : Nat) (b : ℚ) md ch,
      s.metadata_index.get? idx = some md → s.chunks.get? idx = some ch →
      (∀ fl, f = some fl → matchesFilters md fl = true) →
      P (idx, (1 - alpha) * b, ⟨ch, md, 0, 0⟩)) :
    ∀ (ps : List (Nat × ℚ)) (acc : CombinedTable),
      (∀ e ∈ acc, P e) →
      ∀ t, ps.foldlM (bm25Step s alpha f) acc = .ok t → ∀ e ∈ t, P e := by
  intro ps
  induction ps with
  | nil =>
    intro acc hacc t ht e he
    cases Except.ok.inj ht
    exact hacc e he
  | cons p rest ih =>
    intro acc hacc t ht e he
    rw [List.foldlM_cons] at ht
    cases hstep : bm25Step s alpha f acc p with
    | error err =>
      rw [hstep] at ht
      cases ht
    | ok acc' =>
      rw [hstep] at ht
      refine ih acc' ?_ t ht e he
      intro e' he'
      rcases bm25Step_mem s alpha f acc p acc' hstep e' he' with
        hin | ⟨e0, he0, h1, h2⟩ | ⟨md, ch, hmd, hch, heq, hfl⟩
      · exact hacc e' hin
      · exact hmono e' e0 h1 h2 (hacc e0 he0)
      · rw [heq]
        exact hnew p.1 p.2 md ch hmd hch hfl

theorem combineResults_entry (s : VectorStore) (sem : List SearchResult)
    (scores : List ℚ) (alpha : ℚ) (f : Option Metadata)
    (out : List HybridResult)
    (h : combineResults s sem scores alpha f = .ok out)
    (P : Nat × ℚ × SearchResult → Prop)
    (hmono : ∀ e e0, e.1 = e0.1 → e.2.2 = e0.2.2 → P e0 → P e)
    (hnew : ∀ (idx : Nat) (b : ℚ) md ch,
      s.metadata_index.get? idx = some md → s.chunks.get? idx = some ch →
      (∀ fl, f = some fl → matchesFilters md fl = true) →
      P (idx, (1 - alpha) * b, ⟨ch, md, 0, 0⟩))
    (hseed : ∀ e ∈ seedSemantic s.chunks alpha sem, P e) :
    ∀ e ∈ out, ∃ entry, P entry ∧ e = toHybrid entry := by
  intro e he
  unfold combineResults at h
  cases hn : normalizeBM25 scores with
  | error err => rw [hn] at h; cases h
  | ok norm =>
    rw [hn] at h
    dsimp only at h
    cases hf : norm.enum.foldlM (bm25Step s alpha f)
        (seedSemantic s.chunks alpha sem) with
    | error err => rw [hf] at h; cases h
    | ok table =>
      rw [hf] at h
      cases Except.ok.inj h
      rcases List.mem_map.mp he with ⟨entry, hentry, rfl⟩
      have hmem := (stableSort_perm _ _).mem_iff.mp hentry
      exact ⟨entry, bm25Fold_preserve s alpha f P hmono hnew norm.enum
        (seedSemantic s.chunks alpha sem) hseed table hf entry hmem, rfl⟩

theorem combineResults_content (s : VectorStore) (sem : List SearchResult)
    (scores : List ℚ) (alpha : ℚ) (f : Option Metadata)
    (out : List HybridResult)
    (h : combineResults s sem scores alpha f = .ok out) :
    ∀ e ∈ out, ∃ ch ∈ s.chunks, ch.content = e.chunk.content := by
  intro e he
  have := combineResults_entry s sem scores alpha f out h
    (fun entry => ∃ ch ∈ s.chunks, ch.content = entry.2.2.chunk.content)
    (by
      intro e' e0 _ h2 hP
      rw [h2]
      exact hP)
    (by
      intro idx b md ch hmd hch _
      exact ⟨ch, List.get?_mem hch, rfl⟩)
    (by
      intro entry hentry
      rcases seedSemantic_mem_main s.chunks alpha sem entry hentry with
        ⟨r, _, h1, _, h3⟩
      rw [findChunkIndex_eq_first] at h3
      rcases firstContentIdx_spec r.chunk.content s.chunks entry.1 h3 with
        ⟨ch, hget, hcont, _⟩
      exact ⟨ch, List.get?_mem hget, by rw [hcont, h1]⟩)
    e he
  rcases this with ⟨entry, hP, rfl⟩
  exact hP

theorem dictWrite_keys_has (key : Nat) (e : ℚ × SearchResult) :
    ∀ t : CombinedTable, dictHas key t = true →
    (dictWrite key e t).map Prod.fst = t.map Prod.fst := by
  intro t
  induction t with
  | nil => intro h; cases h
  | cons q rest ih =>
    intro h
    rcases q with ⟨k', e'⟩
    by_cases hk : key = k'
    · subst hk
      unfold dictWrite
      rw [if_pos rfl]
      simp
    · unfold dictWrite
      rw [if_neg hk]
      simp only [dictHas, List.any_cons, Bool.or_eq_true,
        decide_eq_true_eq] at h
      rcases h with h | h
      · exact absurd h.symm hk
      · simp [ih h]

theorem seedSemantic_keys_nodup_aux (stored : List Chunk) (alpha : ℚ) :
    ∀ (sem : List SearchResult) (acc : CombinedTable),
    ((acc.map Prod.fst).Nodup) →
    (((sem.foldl (fun acc r =>
      match findChunkIndex stored r.chunk with
      | some i => dictWrite i (alpha * r.similarity, r) acc
      | none => acc) acc)).map Prod.fst).Nodup := by
  intro sem
  induction sem with
  | nil => intro acc h; exact h
  | cons r0 rest ih =>
    intro acc h
    rw [List.foldl_cons]
    cases hfi : findChunkIndex stored r0.chunk with
    | none => exact ih acc h
    | some i =>
      dsimp only
      refine ih _ ?_
      cases hhas : dictHas i acc with
      | true => rw [dictWrite_keys_has i _ acc hhas]; exact h
      | false =>
        rw [dictWrite_not_has i _ acc hhas]
        rw [List.map_append]
        simp only [List.map_cons, List.map_nil]
        rw [List.nodup_append]
        refine ⟨h, by simp, ?_⟩
        intro a ha
        simp only [List.mem_singleton]
        intro heq
        rw [heq] at ha
        have hcontra : dictHas i acc = true := by
          simp only [dictHas, List.any_eq_true]
          rcases List.mem_map.mp ha with ⟨p, hp, hpa⟩
          exact ⟨p, hp, by simp [hpa]⟩
        rw [hcontra] at hhas
        cases hhas

theorem seedSemantic_keys_nodup (stored : List Chunk) (alpha : ℚ)
    (sem : List SearchResult) :
    ((seedSemantic stored alpha sem).map Prod.fst).Nodup :=
  seedSemantic_keys_nodup_aux stored alpha sem [] (by simp)

theorem mem_eq_of_nodup_keys :
    ∀ (t : CombinedTable) (e1 e2 : Nat × ℚ × SearchResult),
    (t.map Prod.fst).Nodup → e1 ∈ t → e2 ∈ t → e1.1 = e2.1 → e1 = e2 := by
  intro t
  induction t with
  | nil => intro e1 e2 _ h1 _; cases h1
  | cons q rest ih =>
    intro e1 e2 hnd h1 h2 hk
    rw [List.map_cons, List.nodup_cons] at hnd
    rcases List.mem_cons.mp h1 with rfl | h1' <;>
      rcases List.mem_cons.mp h2 with h2' | h2'
    · rw [h2']
    · exfalso
      exact hnd.1 (hk ▸ List.mem_map.mpr ⟨e2, h2', rfl⟩)
    · exfalso
      rw [h2'] at hk
      exact hnd.1 (hk ▸ List.mem_map.mpr ⟨e1, h1', rfl⟩)
    · exact ih e1 e2 hnd.2 h1' h2' hk

/-! ## Claim C9: content-based re-identification in hybrid fusion -/

/-- C9: `_find_chunk_index` is a linear scan returning the first stored
chunk with exactly equal content (first two conjuncts); a vector result
whose content matches no stored chunk is silently dropped — every fused
entry's content equals some stored chunk's content, so nothing in the fused
output carries the orphaned content (third conjunct); the seeded table's
value at a corpus index is exactly the contribution of the LAST semantic
result mapping to it, so results with identical content collapse onto one
index with later seeds overwriting earlier ones (fourth conjunct); hence
the seeding phase produces at most one entry per distinct content string
(fifth conjunct). -/
theorem c9_content_reidentification :
    (∀ (stored : List Chunk) (c : Chunk) (i : Nat),
      findChunkIndex stored c = some i →
      ∃ ch, stored.get? i = some ch ∧ ch.content = c.content ∧
        ∀ j, j < i → ∀ ch', stored.get? j = some ch' →
          ch'.content ≠ c.content) ∧
    (∀ (stored : List Chunk) (c : Chunk),
      findChunkIndex stored c = none →
      ∀ ch ∈ stored, ch.content ≠ c.content) ∧
    (∀ (s : VectorStore) (sem : List SearchResult) (scores : List ℚ)
      (alpha : ℚ) (f : Option Metadata) (out : List HybridResult)
      (r : SearchResult),
      combineResults s sem scores alpha f = .ok out →
      (∀ ch ∈ s.chunks, ch.content ≠ r.chunk.content) →
      ∀ e ∈ out, e.chunk.content ≠ r.chunk.content) ∧
    (∀ (stored : List Chunk) (alpha : ℚ) (sem : List SearchResult)
      (key : Nat),
      (seedSemantic stored alpha sem).lookup key =
        ((sem.filter (fun r =>
          decide (findChunkIndex stored r.chunk = some key))).getLast?).map
            (fun r => (alpha * r.similarity, r))) ∧
    (∀ (stored : List Chunk) (alpha : ℚ) (sem : List SearchResult)
      (e1 e2 : Nat × ℚ × SearchResult),
      e1 ∈ seedSemantic stored alpha sem →
      e2 ∈ seedSemantic stored alpha sem →
      e1.2.2.chunk.content = e2.2.2.chunk.content → e1 = e2) := by
  refine ⟨?_, ?_, ?_, ?_, ?_⟩
  · intro stored c i h
    rw [findChunkIndex_eq_first] at h
    exact firstContentIdx_spec c.content stored i h
  · intro stored c h
    rw [findChunkIndex_eq_first] at h
    exact firstContentIdx_none c.content stored h
  · intro s sem scores alpha f out r hok hnone e he
    rcases combineResults_content s sem scores alpha f out hok e he with
      ⟨ch, hch, hcont⟩
    rw [← hcont]
    exact hnone ch hch
  · intro stored alpha sem key
    exact seedSemantic_lookup_last stored alpha key sem
  · intro stored alpha sem e1 e2 h1 h2 hcont
    rcases seedSemantic_mem_main stored alpha sem e1 h1 with
      ⟨r1, _, hr1, _, hf1⟩
    rcases seedSemantic_mem_main stored alpha sem e2 h2 with
      ⟨r2, _, hr2, _, hf2⟩
    have hc12 : r1.chunk.content = r2.chunk.content := by
      rw [← hr1, ← hr2]
      exact hcont
    have hkey : e1.1 = e2.1 := by
      have := findChunkIndex_congr stored r1.chunk r2.chunk hc12
      rw [hf1, hf2] at this
      exact Option.some.inj this
    exact mem_eq_of_nodup_keys (seedSemantic stored alpha sem) e1 e2
      (seedSemantic_keys_nodup stored alpha sem) h1 h2 hkey

/-- C9 witness: on a two-chunk store with duplicate content `"a"`, the scan
identifies index 0 as the first content match for a probe chunk with
content `"a"`. -/
theorem c9_content_reidentification_witness :
    ∃ ch, [Chunk.mk "a" 0 [], Chunk.mk "a" 1 []].get? 0 = some ch ∧
      ch.content = (Chunk.mk "a" 5 []).content ∧
      ∀ j, j < 0 →
        ∀ ch', [Chunk.mk "a" 0 [], Chunk.mk "a" 1 []].get? j = some ch' →
          ch'.content ≠ (Chunk.mk "a" 5 []).content :=
  c9_content_reidentification.1 [⟨"a", 0, []⟩, ⟨"a", 1, []⟩] ⟨"a", 5, []⟩ 0
    (by decide)

/-! ## Claim C4: chunk-size invariant -/

/-- C4: every chunk returned by `chunk_document` — whichever of the four
chunking branches produced the underlying text — satisfies
`len(content.strip()) >= min_chunk_size`; undersized chunks are discarded at
creation. -/
theorem c4_chunk_size_invariant (cfg : ChunkingConfig) (content : String)
    (metadata : Metadata) (c : Chunk)
    (hc : c ∈ chunkDocument cfg content metadata) :
    cfg.min_chunk_size ≤ (pyStrip c.content).length := by
  simp only [chunkDocument] at hc
  rcases List.mem_filterMap.mp hc with ⟨p, _, hcp⟩
  by_cases hlt : (pyStrip p.2).length < cfg.min_chunk_size
  · rw [if_pos hlt] at hcp
    cases hcp
  · rw [if_neg hlt] at hcp
    cases Option.some.inj hcp
    exact Nat.le_of_not_lt hlt

/-- C4 witness: a concrete generic-type document. -/
theorem c4_chunk_size_invariant_witness :
    (ChunkingConfig.mk 5 2 1).min_chunk_size ≤
      (pyStrip (Chunk.mk "hello" 0 []).content).length :=
  c4_chunk_size_invariant ⟨5, 2, 1⟩ "hello" [] ⟨"hello", 0, []⟩ (by decide)

/-! ## Claim C5: cache set/get and TTL expiry -/

theorem dirWrite_lookup_self (key : String) (e : CacheEntry) (d : CacheDir) :
    (dirWrite key e d).lookup key = some e := by
  induction d with
  | nil => simp [dirWrite, List.lookup]
  | cons p rest ih =>
    rcases p with ⟨k', e'⟩
    by_cases h : key = k'
    · subst h
      simp [dirWrite, List.lookup]
    · have hb : (key == k') = false := beq_eq_false_iff_ne.mpr h
      simp only [dirWrite, if_neg h, List.lookup, hb, ih]

theorem dirUnlink_lookup (key : String) (d : CacheDir) :
    (dirUnlink key d).lookup key = none := by
  induction d with
  | nil => rfl
  | cons p rest ih =>
    rcases p with ⟨k', e'⟩
    by_cases h : k' = key
    · subst h
      simp only [dirUnlink, List.filter_cons]
      rw [if_neg (by simp)]
      exact ih
    · simp only [dirUnlink, List.filter_cons]
      rw [if_pos (by simp [h])]
      have hb : (key == k') = false := beq_eq_false_iff_ne.mpr (Ne.symm h)
      simp only [List.lookup, hb]
      exact ih

theorem ttlSeconds_nonneg (ttlDays : Nat) : 0 ≤ ttlSeconds ttlDays := by
  unfold ttlSeconds
  positivity

/-- C5: `set_response(q, r)` followed immediately by `get_response(q)` (same
simulated clock instant) returns `r`; and at any instant strictly more than
`ttl_seconds` after the stored timestamp, `get_response(q)` returns nothing
and that very call deletes the entry file. -/
theorem c5_cache_set_get_ttl (hash : String → String) (ttlDays : Nat)
    (dir : CacheDir) (t : ℚ) (q r : String) :
    (getResponse hash (ttlSeconds ttlDays) (setResponse hash dir t q r) t q).1
      = some r ∧
    ∀ t' : ℚ, ttlSeconds ttlDays < t' - t →
      (getResponse hash (ttlSeconds ttlDays) (setResponse hash dir t q r) t' q).1
        = none ∧
      ((getResponse hash (ttlSeconds ttlDays)
          (setResponse hash dir t q r) t' q).2).lookup (hash q) = none := by
  have hw : (setResponse hash dir t q r).lookup (hash q) = some ⟨q, r, t⟩ :=
    dirWrite_lookup_self (hash q) ⟨q, r, t⟩ dir
  constructor
  · simp only [getResponse, hw]
    rw [if_neg]
    have := ttlSeconds_nonneg ttlDays
    simp
    linarith
  · intro t' ht'
    simp only [getResponse, hw]
    rw [if_pos ht']
    exact ⟨rfl, dirUnlink_lookup (hash q) _⟩

/-- C5 witness: a 7-day TTL cache written at time 0 and read at times 0 and
700000 (700000 > 604800 = 7 days). -/
theorem c5_cache_set_get_ttl_witness :
    (getResponse id (ttlSeconds 7) (setResponse id [] 0 "q" "r") 0 "q").1
      = some "r" ∧
    (getResponse id (ttlSeconds 7) (setResponse id [] 0 "q" "r") 700000 "q").1
      = none :=
  ⟨(c5_cache_set_get_ttl id 7 [] 0 "q" "r").1,
    ((c5_cache_set_get_ttl id 7 [] 0 "q" "r").2 700000 (by norm_num [ttlSeconds])).1⟩

/-! ## Claim C6: load failure atomicity -/

/-- C6 counterexample: with `faiss.index` readable but `chunks.pkl` missing,
the load reports failure (`False` from the caller's perspective) yet the
store is not in its pre-load state: its index field has already been
replaced. -/
theorem c6_load_counterexample :
    ((VectorStore.init 2).load ⟨some ⟨3, [[1, 2, 3]]⟩, none, none, none⟩).2
      = false ∧
    ((VectorStore.init 2).load ⟨some ⟨3, [[1, 2, 3]]⟩, none, none, none⟩).1
      ≠ VectorStore.init 2 := by
  constructor
  · rfl
  · intro h
    have := congrArg (fun s => s.index.d) h
    simp [VectorStore.load, VectorStore.init] at this

/-- C6 amended: a failed load surfaces a boolean failure to the caller
(`RAGPipeline.load_index` returns `False`), but the store is not rolled
back: the three artifacts actually read (`faiss.index`, `chunks.pkl`,
`metadata.json` — the `info.json` manifest is never read) are assigned to
the store's fields in that order, so a failure leaves every field read
before the failing artifact already replaced; only a failure on the very
first artifact leaves the whole store in its pre-load state. -/
theorem c6_load_partial_mutation (s : VectorStore) (dir : IndexDir) :
    (dir.faissIndexFile = none → s.load dir = (s, false)) ∧
    (∀ fidx, dir.faissIndexFile = some fidx → dir.chunksPkl = none →
      s.load dir = ({ s with index := fidx }, false)) ∧
    (∀ fidx cks, dir.faissIndexFile = some fidx → dir.chunksPkl = some cks →
      dir.metadataJson = none →
      s.load dir = ({ s with index := fidx, chunks := cks }, false)) ∧
    (∀ fidx cks md, dir.faissIndexFile = some fidx →
      dir.chunksPkl = some cks → dir.metadataJson = some md →
      s.load dir =
        ({ s with index := fidx, chunks := cks, metadata_index := md }, true)) ∧
    (pipelineLoadIndex s dir).2 = (s.load dir).2 := by
  refine ⟨?_, ?_, ?_, ?_, rfl⟩
  · intro h
    simp [VectorStore.load, h]
  · intro fidx h1 h2
    simp [VectorStore.load, h1, h2]
  · intro fidx cks h1 h2 h3
    simp [VectorStore.load, h1, h2, h3]
  · intro fidx cks md h1 h2 h3
    simp [VectorStore.load, h1, h2, h3]

/-- C6 witness: the amended characterization applied to the counterexample
directory. -/
theorem c6_load_partial_mutation_witness :
    (VectorStore.init 2).load ⟨some ⟨3, [[1, 2, 3]]⟩, none, none, none⟩ =
      ({ VectorStore.init 2 with index := ⟨3, [[1, 2, 3]]⟩ }, false) :=
  (c6_load_partial_mutation (VectorStore.init 2)
    ⟨some ⟨3, [[1, 2, 3]]⟩, none, none, none⟩).2.1 ⟨3, [[1, 2, 3]]⟩ rfl rfl

/-! ## Claim C8: updater no-op on zero changed files -/

/-- C8: when the set of changed files is empty — in particular whenever the
git enumeration fails, which degrades to zero changed files — `update()`
returns successfully and leaves the vector index, the lexical index (both
in-memory and persisted) and the watermark file all unchanged. -/
theorem c8_update_noop (env : UpdateEnv) (st : UpdaterState) (now : String) :
    (env.gitRun (updaterLastUpdate st) = none →
      updaterUpdate env st now = (st, true)) ∧
    (getModifiedFiles (env.gitRun (updaterLastUpdate st)) = [] →
      updaterUpdate env st now = (st, true) ∧
      (updaterUpdate env st now).1.store = st.store ∧
      (updaterUpdate env st now).1.tokenizedCorpus = st.tokenizedCorpus ∧
      (updaterUpdate env st now).1.savedIndex = st.savedIndex ∧
      (updaterUpdate env st now).1.savedBM25 = st.savedBM25 ∧
      (updaterUpdate env st now).1.watermark = st.watermark) := by
  have key : getModifiedFiles (env.gitRun (updaterLastUpdate st)) = [] →
      updaterUpdate env st now = (st, true) := by
    intro h
    simp only [updaterUpdate, h]
    rfl
  refine ⟨?_, ?_⟩
  · intro h
    exact key (by rw [h]; rfl)
  · intro h
    have h1 := key h
    exact ⟨h1, by rw [h1], by rw [h1], by rw [h1], by rw [h1], by rw [h1]⟩

/-- C8 witness: an environment whose git enumeration fails, over a fresh
updater state. -/
theorem c8_update_noop_witness :
    updaterUpdate
      ⟨fun _ => none, fun _ => false, fun _ => none, fun _ => [], fun _ => []⟩
      ⟨VectorStore.init 2, none, none, none, some "2024-01-01"⟩ "2024-02-02" =
    (⟨VectorStore.init 2, none, none, none, some "2024-01-01"⟩, true) :=
  (c8_update_noop
    ⟨fun _ => none, fun _ => false, fun _ => none, fun _ => [], fun _ => []⟩
    ⟨VectorStore.init 2, none, none, none, some "2024-01-01"⟩ "2024-02-02").1 rfl

/-- C7 witness: a two-chunk batch whose second chunk lacks an embedding,
on a store already holding one vector. -/
theorem c7_add_without_embedding_aborts_witness :
    (VectorStore.mk 1 ⟨1, [[5]]⟩ [⟨"x", 0, []⟩] [[]]).add_chunks
      [⟨"a", 0, [], some [1]⟩, ⟨"b", 1, [], none⟩] = .error () ∧
    applyAdd (VectorStore.mk 1 ⟨1, [[5]]⟩ [⟨"x", 0, []⟩] [[]])
      [⟨"a", 0, [], some [1]⟩, ⟨"b", 1, [], none⟩] =
      VectorStore.mk 1 ⟨1, [[5]]⟩ [⟨"x", 0, []⟩] [[]] := by
  have h := c7_add_without_embedding_aborts
    (VectorStore.mk 1 ⟨1, [[5]]⟩ [⟨"x", 0, []⟩] [[]])
    [⟨"a", 0, [], some [1]⟩, ⟨"b", 1, [], none⟩]
    ⟨⟨"b", 1, [], none⟩, by decide, rfl⟩
  exact ⟨h.1, h.2.1⟩

/-! ## Lemmas: the sorted faiss candidate list -/

theorem faissSearch_decomp (s : VectorStore) (q : List ℚ) (K : Nat) :
    faissSearch s.index q K = (sortedCandidates s q).take K ++
      List.replicate (K - s.index.vectors.length)
        ((-1 : Int), faissPadDistance) := rfl

theorem sqDist_nonneg (a : List ℚ) : ∀ b : List ℚ, 0 ≤ sqDist a b := by
  induction a with
  | nil => intro b; simp [sqDist]
  | cons x xs ih =>
    intro b
    cases b with
    | nil => simp [sqDist]
    | cons y ys =>
      have h1 : 0 ≤ (x - y) * (x - y) := mul_self_nonneg _
      have h2 := ih ys
      unfold sqDist at *
      simp only [List.zipWith_cons_cons, List.sum_cons]
      exact add_nonneg h1 h2

theorem sortedCandidates_length (s : VectorStore) (q : List ℚ) :
    (sortedCandidates s q).length = s.index.vectors.length := by
  unfold sortedCandidates
  rw [(stableSort_perm _ _).length_eq, List.length_map, List.enum_length]

theorem sortedCandidates_bounds (s : VectorStore) (q : List ℚ)
    (hInv : s.Inv) :
    ∀ c ∈ sortedCandidates s q, 0 ≤ c.1 ∧ c.1.toNat < s.chunks.length ∧
      c.1.toNat < s.metadata_index.length := by
  intro c hc
  have hmem := (stableSort_perm _ _).mem_iff.mp hc
  rcases List.mem_map.mp hmem with ⟨p, hp, rfl⟩
  have hget := List.mem_enum_iff_getElem?.mp hp
  have hlt : p.1 < s.index.vectors.length := (List.getElem?_eq_some.mp hget).1
  rw [hInv.1] at hlt
  refine ⟨Int.natCast_nonneg _, by simpa using hlt, ?_⟩
  rw [← hInv.2]
  simpa using hlt

theorem sortedCandidates_dist_nonneg (s : VectorStore) (q : List ℚ) :
    ∀ c ∈ sortedCandidates s q, 0 ≤ c.2 := by
  intro c hc
  have hmem := (stableSort_perm _ _).mem_iff.mp hc
  rcases List.mem_map.mp hmem with ⟨p, hp, rfl⟩
  exact sqDist_nonneg q p.2

theorem sortedCandidates_pairwise (s : VectorStore) (q : List ℚ) :
    (sortedCandidates s q).Pairwise (fun a b => a.2 ≤ b.2) := by
  have h := stableSort_pairwise (fun a b : Int × ℚ => decide (a.2 ≤ b.2))
    (fun a b => by
      rcases le_total a.2 b.2 with h | h
      · exact Or.inl (by simpa using h)
      · exact Or.inr (by simpa using h))
    (fun a b c hab hbc => by
      simp only [decide_eq_true_eq] at *
      exact le_trans hab hbc)
    (s.index.vectors.enum.map (fun p => ((p.1 : Int), sqDist q p.2)))
  exact h.imp (fun hd => by simpa using hd)

theorem sortedCandidates_labels_nodup (s : VectorStore) (q : List ℚ) :
    ((sortedCandidates s q).map (fun c => c.1.toNat)).Nodup := by
  have hperm := (stableSort_perm (fun a b : Int × ℚ => decide (a.2 ≤ b.2))
    (s.index.vectors.enum.map (fun p => ((p.1 : Int), sqDist q p.2)))).map
      (fun c : Int × ℚ => c.1.toNat)
  refine hperm.nodup_iff.mpr ?_
  rw [List.map_map]
  have hmm : (s.index.vectors.enum.map
      ((fun c : Int × ℚ => c.1.toNat) ∘
        (fun p => ((p.1 : Int), sqDist q p.2)))) =
      s.index.vectors.enum.map Prod.fst := by
    apply List.map_congr_left
    intro p _
    simp
  rw [hmm]
  exact List.nodup_enum_map_fst _

theorem sortedCandidates_take_labels_nodup (s : VectorStore) (q : List ℚ)
    (K : Nat) :
    (((sortedCandidates s q).take K).map (fun c => c.1.toNat)).Nodup := by
  rw [List.map_take]
  exact (sortedCandidates_labels_nodup s q).sublist (List.take_sublist _ _)

theorem mkCandResult_chunk_get (s : VectorStore) (c : Int × ℚ)
    (hpos : 0 ≤ c.1) (hlt : c.1.toNat < s.chunks.length) :
    s.chunks.get? c.1.toNat = some (mkCandResult s c).chunk := by
  show s.chunks.get? c.1.toNat = some ((pyGet s.chunks c.1).getD default)
  rw [pyGet_nonneg _ _ hpos, List.get?_eq_get hlt]
  rfl

/-! ## Lemmas: further combined-table bookkeeping -/

theorem dictHas_eq_false (key : Nat) (t : CombinedTable)
    (h : key ∉ t.map Prod.fst) : dictHas key t = false := by
  simp only [dictHas, List.any_eq_false]
  intro p hp
  simp only [decide_eq_true_eq]
  intro hpk
  exact h (List.mem_map.mpr ⟨p, hp, hpk⟩)

theorem dictAddScore_keys (key : Nat) (d : ℚ) :
    ∀ t : CombinedTable, (dictAddScore key d t).map Prod.fst = t.map Prod.fst := by
  intro t
  induction t with
  | nil => rfl
  | cons q rest ih =>
    rcases q with ⟨k', e'⟩
    by_cases h : key = k'
    · subst h
      simp [dictAddScore]
    · simp [dictAddScore, if_neg h, ih]

theorem lookup_some_has (key : Nat) (v : ℚ × SearchResult) (t : CombinedTable)
    (h : t.lookup key = some v) : dictHas key t = true := by
  have hmem := lookup_mem key v t h
  simp only [dictHas, List.any_eq_true]
  exact ⟨(key, v), hmem, by simp⟩

theorem dictWrite_keys_fresh (key : Nat) (e : ℚ × SearchResult)
    (t : CombinedTable) (h : dictHas key t = false)
    (hnd : (t.map Prod.fst).Nodup) :
    ((dictWrite key e t).map Prod.fst).Nodup := by
  rw [dictWrite_not_has _ _ _ h, List.map_append]
  rw [List.nodup_append]
  refine ⟨hnd, by simp, ?_⟩
  intro a ha
  simp only [List.map_cons, List.map_nil, List.mem_singleton]
  intro heq
  rcases List.mem_map.mp ha with ⟨p, hp, hpa⟩
  have hcontra : dictHas key t = true := by
    simp only [dictHas, List.any_eq_true]
    exact ⟨p, hp, by simp [hpa, heq]⟩
  rw [hcontra] at h
  cases h

theorem lookup_of_mem_nodup :
    ∀ (t : CombinedTable) (e : Nat × ℚ × SearchResult),
    (t.map Prod.fst).Nodup → e ∈ t → t.lookup e.1 = some e.2 := by
  intro t
  induction t with
  | nil => intro e _ h; cases h
  | cons q rest ih =>
    intro e hnd he
    rcases q with ⟨k', v'⟩
    rw [List.map_cons, List.nodup_cons] at hnd
    rcases List.mem_cons.mp he with rfl | he'
    · simp [List.lookup]
    · have hne : e.1 ≠ k' := by
        intro heq
        exact hnd.1 (heq ▸ List.mem_map.mpr ⟨e, he', rfl⟩)
      have hb : (e.1 == k') = false := beq_eq_false_iff_ne.mpr hne
      simp only [List.lookup, hb]
      exact ih e hnd.2 he'

/-- When every semantic result maps to a fresh distinct corpus index, the
seeding fold is a plain append of one entry per result, in order. -/
theorem seedSemantic_fresh (stored : List Chunk) (alpha : ℚ)
    (keyOf : SearchResult → Nat) :
    ∀ (sem : List SearchResult) (acc : CombinedTable),
      (∀ r ∈ sem, findChunkIndex stored r.chunk = some (keyOf r)) →
      (acc.map Prod.fst ++ sem.map keyOf).Nodup →
      sem.foldl (fun acc r =>
        match findChunkIndex stored r.chunk with
        | some i => dictWrite i (alpha * r.similarity, r) acc
        | none => acc) acc
      = acc ++ sem.map (fun r => (keyOf r, alpha * r.similarity, r)) := by
  intro sem
  induction sem with
  | nil => intro acc _ _; simp
  | cons r0 rest ih =>
    intro acc hall hnd
    rw [List.foldl_cons, hall r0 (by simp)]
    dsimp only
    rw [List.map_cons] at hnd
    have hfresh : keyOf r0 ∉ acc.map Prod.fst := by
      intro hmem
      rcases List.nodup_append.mp hnd with ⟨_, _, hdisj⟩
      exact hdisj hmem (by simp)
    rw [dictWrite_not_has _ _ _ (dictHas_eq_false _ _ hfresh)]
    have hnd' : ((acc ++ [(keyOf r0, alpha * r0.similarity, r0)]).map Prod.fst ++
        rest.map keyOf).Nodup := by
      rw [List.map_append]
      simp only [List.map_cons, List.map_nil]
      rw [List.append_assoc]
      simpa using hnd
    rw [ih _ (fun r hr => hall r (by simp [hr])) hnd']
    simp

/-! ## Lemmas: BM25 normalization -/

theorem normalizeBM25_ok (scores : List ℚ) (h : scores ≠ []) :
    normalizeBM25 scores = .ok (normValues scores) := by
  unfold normalizeBM25 normValues
  cases hm : scores.max? with
  | none => exact absurd (List.max?_eq_none_iff.mp hm) h
  | some m => rfl

theorem normalizeBM25_ok_eq (scores norm : List ℚ)
    (h : normalizeBM25 scores = .ok norm) : norm = normValues scores := by
  unfold normalizeBM25 at h
  unfold normValues
  cases hm : scores.max? with
  | none => rw [hm] at h; cases h
  | some m => rw [hm] at h; exact (Except.ok.inj h).symm

theorem normValues_length (scores : List ℚ) :
    (normValues scores).length = scores.length := by
  unfold normValues
  cases hm : scores.max? with
  | none => rfl
  | some m =>
    dsimp only
    by_cases h0 : 0 < m
    · rw [if_pos h0, List.length_map]
    · rw [if_neg h0]

/-! ## Lemmas: the search loop and fold never raise on a populated store -/

theorem foldlM_step {ε σ β : Type} (f : σ → β → Except ε σ) (p : β)
    (ps : List β) (acc acc' : σ) (h : f acc p = .ok acc') :
    (p :: ps).foldlM f acc = ps.foldlM f acc' := by
  rw [List.foldlM_cons, h]
  rfl

theorem searchLoop_ok (s : VectorStore) (f : Option Metadata) (k : Nat)
    (hn : s.chunks ≠ []) (hm : s.metadata_index ≠ []) :
    ∀ (cands : List (Int × ℚ)) (acc : List SearchResult),
      (∀ c ∈ cands, (0 ≤ c.1 ∧ c.1.toNat < s.chunks.length ∧
        c.1.toNat < s.metadata_index.length) ∨
        c = ((-1 : Int), faissPadDistance)) →
      ∃ res, searchLoop s f k cands acc = .ok res := by
  intro cands
  induction cands with
  | nil => intro acc _; exact ⟨acc, rfl⟩
  | cons c rest ih =>
    intro acc hc
    rcases c with ⟨idx, dist⟩
    simp only [searchLoop]
    by_cases hguard : (s.chunks.length : Int) ≤ idx
    · rw [if_pos hguard]
      exact ih acc (fun c hc' => hc c (by simp [hc']))
    · rw [if_neg hguard]
      have hpc : ∃ ch, pyGet s.chunks idx = some ch := by
        rcases hc (idx, dist) (by simp) with ⟨hpos, hlt, _⟩ | heq
        · exact ⟨_, by rw [pyGet_nonneg _ _ hpos, List.get?_eq_get hlt]⟩
        · have h1 : idx = -1 := congrArg Prod.fst heq
          subst h1
          exact ⟨_, by rw [pyGet_neg_one,
            List.getLast?_eq_getLast_of_ne_nil hn]⟩
      have hpm : ∃ md, pyGet s.metadata_index idx = some md := by
        rcases hc (idx, dist) (by simp) with ⟨hpos, _, hltm⟩ | heq
        · exact ⟨_, by rw [pyGet_nonneg _ _ hpos, List.get?_eq_get hltm]⟩
        · have h1 : idx = -1 := congrArg Prod.fst heq
          subst h1
          exact ⟨_, by rw [pyGet_neg_one,
            List.getLast?_eq_getLast_of_ne_nil hm]⟩
      rcases hpc with ⟨ch, hch⟩
      rcases hpm with ⟨md, hmd⟩
      rw [hch, hmd]
      dsimp only
      cases f with
      | none =>
        simp only [Bool.false_eq_true, if_false]
        by_cases hk : k ≤
            (acc ++ [(⟨ch, md, dist, 1 / (1 + dist)⟩ : SearchResult)]).length
        · rw [if_pos hk]
          exact ⟨_, rfl⟩
        · rw [if_neg hk]
          exact ih _ (fun c hc' => hc c (by simp [hc']))
      | some fl =>
        by_cases hmf : matchesFilters md fl = true
        · rw [if_neg (by simp [hmf])]
          by_cases hk : k ≤
              (acc ++ [(⟨ch, md, dist, 1 / (1 + dist)⟩ : SearchResult)]).length
          · rw [if_pos hk]
            exact ⟨_, rfl⟩
          · rw [if_neg hk]
            exact ih _ (fun c hc' => hc c (by simp [hc']))
        · rw [if_pos (by
            simp only [Bool.not_eq_true] at hmf
            simp [hmf])]
          exact ih acc (fun c hc' => hc c (by simp [hc']))

theorem search_ok (s : VectorStore) (q : List ℚ) (k : Nat)
    (f : Option Metadata) (hInv : s.Inv) (hn : s.chunks ≠ []) :
    ∃ res, s.search q k f = .ok res := by
  have hm : s.metadata_index ≠ [] := by
    have hl := hInv.2
    intro he
    rw [he, List.length_nil] at hl
    exact hn (List.length_eq_zero.mp hl)
  exact searchLoop_ok s f k hn hm _ []
    (fun c hc => faissSearch_mem_of_inv s q _ hInv c hc)

theorem bm25Fold_ok (s : VectorStore) (alpha : ℚ) (f : Option Metadata) :
    ∀ (ps : List (Nat × ℚ)) (acc : CombinedTable),
      (∀ p ∈ ps, p.1 < s.chunks.length ∧ p.1 < s.metadata_index.length) →
      ∃ t, ps.foldlM (bm25Step s alpha f) acc = .ok t := by
  intro ps
  induction ps with
  | nil => intro acc _; exact ⟨acc, rfl⟩
  | cons p rest ih =>
    intro acc hb
    rcases hb p (by simp) with ⟨hlt, hltm⟩
    have hstep : ∃ acc', bm25Step s alpha f acc p = .ok acc' := by
      unfold bm25Step
      by_cases hhas : dictHas p.1 acc
      · rw [if_pos hhas]
        exact ⟨_, rfl⟩
      · rw [if_neg hhas]
        by_cases hflo : (1 : ℚ) / 10 < p.2
        · rw [if_pos hflo, List.get?_eq_get hltm]
          dsimp only
          cases f with
          | none =>
            simp only [Bool.false_eq_true, if_false]
            rw [List.get?_eq_get hlt]
            dsimp only
            exact ⟨_, rfl⟩
          | some fl =>
            dsimp only
            by_cases hmf :
                matchesFilters (s.metadata_index.get ⟨p.1, hltm⟩) fl = true
            · rw [if_neg (by rw [hmf]; simp), List.get?_eq_get hlt]
              dsimp only
              exact ⟨_, rfl⟩
            · rw [if_pos (by
                simp only [Bool.not_eq_true] at hmf
                rw [hmf]
                rfl)]
              exact ⟨_, rfl⟩
        · rw [if_neg hflo]
          exact ⟨_, rfl⟩
    rcases hstep with ⟨acc', hstep⟩
    rw [foldlM_step _ _ _ _ _ hstep]
    exact ih acc' (fun q' hq' => hb q' (by simp [hq']))

/-- With `alpha = 1` the BM25 walk leaves the seeded table untouched and can
only append fresh entries whose combined score is zero. -/
theorem bm25Fold_one (s : VectorStore) :
    ∀ (ps : List (Nat × ℚ)) (acc : CombinedTable),
      (∀ p ∈ ps, p.1 < s.chunks.length ∧ p.1 < s.metadata_index.length) →
      ∃ ext, ps.foldlM (bm25Step s 1 none) acc = .ok (acc ++ ext) ∧
        ∀ e ∈ ext, e.2.1 = 0 := by
  intro ps
  induction ps with
  | nil =>
    intro acc _
    refine ⟨[], ?_, by simp⟩
    rw [List.append_nil]
    rfl
  | cons p rest ih =>
    intro acc hb
    rcases hb p (by simp) with ⟨hlt, hltm⟩
    have hzero : ((1 : ℚ) - 1) * p.2 = 0 := by ring
    by_cases hhas : dictHas p.1 acc
    · have hstep : bm25Step s 1 none acc p = .ok acc := by
        unfold bm25Step
        rw [if_pos hhas, hzero, dictAddScore_zero]
      rw [foldlM_step _ _ _ _ _ hstep]
      exact ih acc (fun q' hq' => hb q' (by simp [hq']))
    · by_cases hflo : (1 : ℚ) / 10 < p.2
      · have hstep : bm25Step s 1 none acc p = .ok (acc ++
            [(p.1, ((1 : ℚ) - 1) * p.2,
              ⟨s.chunks.get ⟨p.1, hlt⟩, s.metadata_index.get ⟨p.1, hltm⟩,
                0, 0⟩)]) := by
          unfold bm25Step
          rw [if_neg hhas, if_pos hflo, List.get?_eq_get hltm]
          dsimp only
          simp only [Bool.false_eq_true, if_false]
          rw [List.get?_eq_get hlt]
          dsimp only
          rw [dictWrite_not_has _ _ _ (by simpa using hhas)]
        rw [foldlM_step _ _ _ _ _ hstep]
        rcases ih (acc ++
            [(p.1, ((1 : ℚ) - 1) * p.2,
              ⟨s.chunks.get ⟨p.1, hlt⟩, s.metadata_index.get ⟨p.1, hltm⟩,
                0, 0⟩)])
          (fun q' hq' => hb q' (by simp [hq'])) with ⟨ext, hfold, hext⟩
        refine ⟨(p.1, ((1 : ℚ) - 1) * p.2,
          ⟨s.chunks.get ⟨p.1, hlt⟩, s.metadata_index.get ⟨p.1, hltm⟩,
            0, 0⟩) :: ext, ?_, ?_⟩
        · rw [hfold, List.append_assoc, List.singleton_append]
        · intro e he
          rcases List.mem_cons.mp he with rfl | he'
          · exact hzero
          · exact hext e he'
      · have hstep : bm25Step s 1 none acc p = .ok acc := by
          unfold bm25Step
          rw [if_neg hhas, if_neg hflo]
        rw [foldlM_step _ _ _ _ _ hstep]
        exact ih acc (fun q' hq' => hb q' (by simp [hq']))

/-- With `alpha = 0` the walk over the normalized scores overwrites every
seeded (zero) score with exactly the normalized BM25 value at its corpus
index, and fresh entries carry that value directly: every entry of the final
table scores `norm[key]`, its chunk content matches the stored chunk at
`key`, and its metadata passed the filters. -/
theorem bm25Fold_zero (s : VectorStore) (f : Option Metadata) (norm : List ℚ)
    (hcl : norm.length ≤ s.chunks.length)
    (hml : norm.length ≤ s.metadata_index.length) :
    ∀ (tail : List ℚ) (j : Nat) (acc t : CombinedTable),
      norm.drop j = tail →
      (List.enumFrom j tail).foldlM (bm25Step s 0 f) acc = .ok t →
      (acc.map Prod.fst).Nodup →
      (∀ key v, acc.lookup key = some v →
        key < norm.length ∧
        (∃ ch, s.chunks.get? key = some ch ∧
          ch.content = v.2.chunk.content) ∧
        (∀ fl, f = some fl → matchesFilters v.2.metadata fl = true) ∧
        (j ≤ key → v.1 = 0) ∧
        (key < j → v.1 = (norm.get? key).getD 0)) →
      (t.map Prod.fst).Nodup ∧
      (∀ key v, t.lookup key = some v →
        key < norm.length ∧
        (∃ ch, s.chunks.get? key = some ch ∧
          ch.content = v.2.chunk.content) ∧
        (∀ fl, f = some fl → matchesFilters v.2.metadata fl = true) ∧
        v.1 = (norm.get? key).getD 0) := by
  intro tail
  induction tail with
  | nil =>
    intro j acc t hdrop hfold hnd hinv
    have ht : acc = t := Except.ok.inj hfold
    subst ht
    have hj : norm.length ≤ j := List.drop_eq_nil_iff_le.mp hdrop
    refine ⟨hnd, ?_⟩
    intro key v hl
    rcases hinv key v hl with ⟨hklen, hcont, hfil, _, hlt⟩
    exact ⟨hklen, hcont, hfil, hlt (by omega)⟩
  | cons b tail' ih =>
    intro j acc t hdrop hfold hnd hinv
    have hjlen : j < norm.length := by
      by_contra hge
      rw [List.drop_eq_nil_of_le (by omega)] at hdrop
      cases hdrop
    have hgetj : norm.get? j = some b := by
      have h0 : (norm.drop j).get? 0 = norm.get? (j + 0) := List.get?_drop _ _ _
      rw [hdrop] at h0
      simpa using h0.symm
    have hdrop' : norm.drop (j + 1) = tail' := by
      have h1 : (norm.drop j).drop 1 = norm.drop (j + 1) := List.drop_drop _ _ _
      rw [hdrop] at h1
      rw [← h1]
      rfl
    rw [show List.enumFrom j (b :: tail') =
      (j, b) :: List.enumFrom (j + 1) tail' from rfl] at hfold
    by_cases hhas : dictHas j acc
    · have hstep : bm25Step s 0 f acc (j, b) =
          .ok (dictAddScore j ((1 - 0) * b) acc) := by
        unfold bm25Step
        rw [if_pos hhas]
      rw [foldlM_step _ _ _ _ _ hstep] at hfold
      refine ih (j + 1) _ t hdrop' hfold ?_ ?_
      · rw [dictAddScore_keys]
        exact hnd
      · intro key v hl
        by_cases hk : key = j
        · subst hk
          rw [dictAddScore_lookup_self] at hl
          cases hv0 : acc.lookup key with
          | none =>
            rw [hv0] at hl
            cases hl
          | some v0 =>
            rw [hv0] at hl
            have hv : v = (v0.1 + (1 - 0) * b, v0.2) := (Option.some.inj hl).symm
            rcases hinv key v0 hv0 with ⟨hklen, hcont, hfil, hzero, _⟩
            have h0 : v0.1 = 0 := hzero (le_refl _)
            refine ⟨hklen, ?_, ?_, ?_, ?_⟩
            · rw [hv]
              exact hcont
            · rw [hv]
              exact hfil
            · intro hle
              exact absurd hle (by omega)
            · intro _
              rw [hv, hgetj]
              show v0.1 + (1 - 0) * b = b
              rw [h0]
              ring
        · rw [dictAddScore_lookup_ne _ _ _ _ hk] at hl
          rcases hinv key v hl with ⟨hklen, hcont, hfil, hzero, hdone⟩
          refine ⟨hklen, hcont, hfil, ?_, ?_⟩
          · intro hle
            exact hzero (by omega)
          · intro hlt
            rcases Nat.lt_succ_iff_lt_or_eq.mp hlt with h | h
            · exact hdone h
            · exact absurd h hk
    · have hltm : j < s.metadata_index.length := lt_of_lt_of_le hjlen hml
      have hltc : j < s.chunks.length := lt_of_lt_of_le hjlen hcl
      by_cases hflo : (1 : ℚ) / 10 < b
      · cases f with
        | none =>
          have hstep : bm25Step s 0 none acc (j, b) =
              .ok (dictWrite j ((1 - 0) * b,
                ⟨s.chunks.get ⟨j, hltc⟩, s.metadata_index.get ⟨j, hltm⟩,
                  0, 0⟩) acc) := by
            unfold bm25Step
            rw [if_neg hhas, if_pos hflo, List.get?_eq_get hltm]
            dsimp only
            simp only [Bool.false_eq_true, if_false]
            rw [List.get?_eq_get hltc]
          rw [foldlM_step _ _ _ _ _ hstep] at hfold
          refine ih (j + 1) _ t hdrop' hfold ?_ ?_
          · exact dictWrite_keys_fresh _ _ _ (by simpa using hhas) hnd
          · intro key v hl
            by_cases hk : key = j
            · subst hk
              rw [dictWrite_lookup_self] at hl
              have hv := (Option.some.inj hl).symm
              refine ⟨hjlen, ?_, ?_, ?_, ?_⟩
              · rw [hv]
                exact ⟨s.chunks.get ⟨key, hltc⟩, List.get?_eq_get hltc, rfl⟩
              · intro fl hf
                cases hf
              · intro hle
                exact absurd hle (by omega)
              · intro _
                rw [hv, hgetj]
                show (1 - 0) * b = b
                ring
            · rw [dictWrite_lookup_ne _ _ _ _ hk] at hl
              rcases hinv key v hl with ⟨hklen, hcont, hfil, hzero, hdone⟩
              refine ⟨hklen, hcont, hfil, ?_, ?_⟩
              · intro hle
                exact hzero (by omega)
              · intro hlt
                rcases Nat.lt_succ_iff_lt_or_eq.mp hlt with h | h
                · exact hdone h
                · exact absurd h hk
        | some fl =>
          by_cases hmf :
              matchesFilters (s.metadata_index.get ⟨j, hltm⟩) fl = true
          · have hstep : bm25Step s 0 (some fl) acc (j, b) =
                .ok (dictWrite j ((1 - 0) * b,
                  ⟨s.chunks.get ⟨j, hltc⟩, s.metadata_index.get ⟨j, hltm⟩,
                    0, 0⟩) acc) := by
              unfold bm25Step
              rw [if_neg hhas, if_pos hflo, List.get?_eq_get hltm]
              dsimp only
              rw [if_neg (by rw [hmf]; simp), List.get?_eq_get hltc]
            rw [foldlM_step _ _ _ _ _ hstep] at hfold
            refine ih (j + 1) _ t hdrop' hfold ?_ ?_
            · exact dictWrite_keys_fresh _ _ _ (by simpa using hhas) hnd
            · intro key v hl
              by_cases hk : key = j
              · subst hk
                rw [dictWrite_lookup_self] at hl
                have hv := (Option.some.inj hl).symm
                refine ⟨hjlen, ?_, ?_, ?_, ?_⟩
                · rw [hv]
                  exact ⟨s.chunks.get ⟨key, hltc⟩, List.get?_eq_get hltc, rfl⟩
                · intro fl' hf'
                  cases Option.some.inj hf'
                  rw [hv]
                  exact hmf
                · intro hle
                  exact absurd hle (by omega)
                · intro _
                  rw [hv, hgetj]
                  show (1 - 0) * b = b
                  ring
              · rw [dictWrite_lookup_ne _ _ _ _ hk] at hl
                rcases hinv key v hl with ⟨hklen, hcont, hfil, hzero, hdone⟩
                refine ⟨hklen, hcont, hfil, ?_, ?_⟩
                · intro hle
                  exact hzero (by omega)
                · intro hlt
                  rcases Nat.lt_succ_iff_lt_or_eq.mp hlt with h | h
                  · exact hdone h
                  · exact absurd h hk
          · have hstep : bm25Step s 0 (some fl) acc (j, b) = .ok acc := by
              unfold bm25Step
              rw [if_neg hhas, if_pos hflo, List.get?_eq_get hltm]
              dsimp only
              rw [if_pos (by
                simp only [Bool.not_eq_true] at hmf
                rw [hmf]
                rfl)]
            rw [foldlM_step _ _ _ _ _ hstep] at hfold
            refine ih (j + 1) _ t hdrop' hfold hnd ?_
            intro key v hl
            have hkj : key ≠ j := by
              intro heq
              rw [heq] at hl
              exact hhas (lookup_some_has _ _ _ hl)
            rcases hinv key v hl with ⟨hklen, hcont, hfil, hzero, hdone⟩
            refine ⟨hklen, hcont, hfil, ?_, ?_⟩
            · intro hle
              exact hzero (by omega)
            · intro hlt
              rcases Nat.lt_succ_iff_lt_or_eq.mp hlt with h | h
              · exact hdone h
              · exact absurd h hkj
      · have hstep : bm25Step s 0 f acc (j, b) = .ok acc := by
          unfold bm25Step
          rw [if_neg hhas, if_neg hflo]
        rw [foldlM_step _ _ _ _ _ hstep] at hfold
        refine ih (j + 1) _ t hdrop' hfold hnd ?_
        intro key v hl
        have hkj : key ≠ j := by
          intro heq
          rw [heq] at hl
          exact hhas (lookup_some_has _ _ _ hl)
        rcases hinv key v hl with ⟨hklen, hcont, hfil, hzero, hdone⟩
        refine ⟨hklen, hcont, hfil, ?_, ?_⟩
        · intro hle
          exact hzero (by omega)
        · intro hlt
          rcases Nat.lt_succ_iff_lt_or_eq.mp hlt with h | h
          · exact hdone h
          · exact absurd h hkj

/-- With `alpha = 1`, no filters, at least `2k` stored chunks with pairwise
distinct contents, and a scorer covering the whole corpus, the fused output
carries exactly the pure vector ranking, in order. -/
theorem hybrid_alpha_one_eq (s : VectorStore) (getScores : List String → List ℚ)
    (qe : List ℚ) (query : String) (k : Nat) (hInv : s.Inv)
    (hLen : (getScores (pyLowerSplit query)).length = s.chunks.length)
    (hk : 0 < k) (h2k : k * 2 ≤ s.chunks.length)
    (hnd : (s.chunks.map (fun c => c.content)).Nodup) :
    ∃ vres hres,
      s.search qe k none = .ok vres ∧
      hybridSearch s getScores qe query k 1 none = .ok hres ∧
      hres.map HybridResult.underlying = vres := by
  have hnpos : 0 < s.chunks.length := by omega
  have hslen : (sortedCandidates s qe).length = s.chunks.length := by
    rw [sortedCandidates_length, hInv.1]
  have hsearch : ∀ K : Nat, 0 < K → K ≤ s.chunks.length →
      s.search qe K none =
        .ok (((sortedCandidates s qe).take K).map (mkCandResult s)) := by
    intro K hK hKn
    show searchLoop s none K (faissSearch s.index qe K) [] = _
    rw [faissSearch_decomp]
    have hpad : K - s.index.vectors.length = 0 := by
      rw [hInv.1]
      omega
    rw [hpad, List.replicate_zero, List.append_nil]
    rw [searchLoop_take s K _ [] (fun c hc =>
      sortedCandidates_bounds s qe hInv c (List.mem_of_mem_take hc))
      (by simpa using hK)]
    simp [List.take_take]
  have hvres := hsearch k hk (by omega)
  have hsem := hsearch (k * 2) (by omega) h2k
  have hfci : ∀ c ∈ (sortedCandidates s qe).take (k * 2),
      findChunkIndex s.chunks (mkCandResult s c).chunk = some c.1.toNat := by
    intro c hc
    rcases sortedCandidates_bounds s qe hInv c (List.mem_of_mem_take hc) with
      ⟨hpos, hlt, _⟩
    exact findChunkIndex_of_nodup s.chunks hnd c.1.toNat _
      (mkCandResult_chunk_get s c hpos hlt)
  have hall : ∀ r ∈ ((sortedCandidates s qe).take (k * 2)).map (mkCandResult s),
      findChunkIndex s.chunks r.chunk =
        some ((findChunkIndex s.chunks r.chunk).getD 0) := by
    intro r hr
    rcases List.mem_map.mp hr with ⟨c, hc, rfl⟩
    rw [hfci c hc]
    rfl
  have hmapkey :
      ((((sortedCandidates s qe).take (k * 2)).map (mkCandResult s)).map
        (fun r => (findChunkIndex s.chunks r.chunk).getD 0)) =
      ((sortedCandidates s qe).take (k * 2)).map (fun c => c.1.toNat) := by
    rw [List.map_map]
    apply List.map_congr_left
    intro c hc
    show (findChunkIndex s.chunks (mkCandResult s c).chunk).getD 0 = c.1.toNat
    rw [hfci c hc]
    rfl
  have hkeysnd :
      (((((sortedCandidates s qe).take (k * 2)).map (mkCandResult s)).map
        (fun r => (findChunkIndex s.chunks r.chunk).getD 0))).Nodup := by
    rw [hmapkey]
    exact sortedCandidates_take_labels_nodup s qe (k * 2)
  have hseeds : seedSemantic s.chunks 1
      (((sortedCandidates s qe).take (k * 2)).map (mkCandResult s)) =
      (((sortedCandidates s qe).take (k * 2)).map (mkCandResult s)).map
        (fun r : SearchResult => ((findChunkIndex s.chunks r.chunk).getD 0,
          1 * r.similarity, r)) := by
    have h := seedSemantic_fresh s.chunks 1
      (fun r => (findChunkIndex s.chunks r.chunk).getD 0)
      (((sortedCandidates s qe).take (k * 2)).map (mkCandResult s)) [] hall
      (by simpa using hkeysnd)
    simpa [seedSemantic] using h
  have hscne : getScores (pyLowerSplit query) ≠ [] := by
    intro he
    rw [he, List.length_nil] at hLen
    omega
  have hnorm := normalizeBM25_ok _ hscne
  have hnlen : (normValues (getScores (pyLowerSplit query))).length =
      s.chunks.length := by
    rw [normValues_length, hLen]
  have hbounds : ∀ p ∈ (normValues (getScores (pyLowerSplit query))).enum,
      p.1 < s.chunks.length ∧ p.1 < s.metadata_index.length := by
    intro p hp
    have hget := List.mem_enum_iff_getElem?.mp hp
    have hlt : p.1 < (normValues (getScores (pyLowerSplit query))).length :=
      (List.getElem?_eq_some.mp hget).1
    rw [hnlen] at hlt
    exact ⟨hlt, by rw [← hInv.2]; exact hlt⟩
  rcases bm25Fold_one s (normValues (getScores (pyLowerSplit query))).enum
    (seedSemantic s.chunks 1
      (((sortedCandidates s qe).take (k * 2)).map (mkCandResult s)))
    hbounds with ⟨ext, hfold, hext⟩
  rw [hseeds] at hfold
  have hdnn : ∀ c ∈ (sortedCandidates s qe).take (k * 2), 0 ≤ c.2 :=
    fun c hc => sortedCandidates_dist_nonneg s qe c (List.mem_of_mem_take hc)
  have hpw_take : ((sortedCandidates s qe).take (k * 2)).Pairwise
      (fun a b => a.2 ≤ b.2) :=
    (sortedCandidates_pairwise s qe).sublist (List.take_sublist _ _)
  have hpw_seeds :
      ((((sortedCandidates s qe).take (k * 2)).map (mkCandResult s)).map
        (fun r : SearchResult => ((findChunkIndex s.chunks r.chunk).getD 0,
          1 * r.similarity, r))).Pairwise
      (fun a b => decide (b.2.1 ≤ a.2.1) = true) := by
    rw [List.map_map]
    refine List.pairwise_map.mpr ?_
    refine List.Pairwise.imp_of_mem ?_ hpw_take
    intro c1 c2 h1 h2 hle
    have h01 : 0 ≤ c1.2 := hdnn c1 h1
    simp only [Function.comp, decide_eq_true_eq, one_mul, mkCandResult]
    apply one_div_le_one_div_of_le
    · linarith
    · linarith
  have hsnn : ∀ e ∈ (((sortedCandidates s qe).take (k * 2)).map
      (mkCandResult s)).map
      (fun r : SearchResult => ((findChunkIndex s.chunks r.chunk).getD 0,
        1 * r.similarity, r)),
      0 ≤ e.2.1 := by
    intro e he
    rw [List.map_map] at he
    rcases List.mem_map.mp he with ⟨c, hc, rfl⟩
    have h01 : 0 ≤ c.2 := hdnn c hc
    show (0 : ℚ) ≤ 1 * (mkCandResult s c).similarity
    rw [one_mul]
    show (0 : ℚ) ≤ 1 / (1 + c.2)
    exact one_div_nonneg.mpr (by linarith)
  have hpw_table :
      (((((sortedCandidates s qe).take (k * 2)).map (mkCandResult s)).map
        (fun r : SearchResult => ((findChunkIndex s.chunks r.chunk).getD 0,
          1 * r.similarity, r))) ++ ext).Pairwise
      (fun a b => decide (b.2.1 ≤ a.2.1) = true) := by
    rw [List.pairwise_append]
    refine ⟨hpw_seeds, ?_, ?_⟩
    · refine List.pairwise_of_forall_mem_list ?_
      intro a ha b hb
      rw [hext a ha, hext b hb]
      norm_num
    · intro a ha b hb
      rw [hext b hb]
      simp only [decide_eq_true_eq]
      exact hsnn a ha
  have hcomb : combineResults s
      (((sortedCandidates s qe).take (k * 2)).map (mkCandResult s))
      (getScores (pyLowerSplit query)) 1 none =
      .ok ((((((sortedCandidates s qe).take (k * 2)).map (mkCandResult s)).map
        (fun r : SearchResult => ((findChunkIndex s.chunks r.chunk).getD 0,
          1 * r.similarity, r))) ++ ext).map toHybrid) := by
    unfold combineResults
    rw [hnorm]
    dsimp only
    rw [hseeds, hfold]
    dsimp only
    rw [stableSort_eq_of_pairwise _ _ hpw_table]
  have hhyb : hybridSearch s getScores qe query k 1 none =
      .ok (((((((sortedCandidates s qe).take (k * 2)).map
        (mkCandResult s)).map
        (fun r : SearchResult => ((findChunkIndex s.chunks r.chunk).getD 0,
          1 * r.similarity, r))) ++ ext).map toHybrid).take k) := by
    unfold hybridSearch
    rw [hsem]
    dsimp only
    rw [hcomb]
  refine ⟨_, _, hvres, hhyb, ?_⟩
  have hlone : k ≤ ((((sortedCandidates s qe).take (k * 2)).map
      (mkCandResult s)).map
      (fun r : SearchResult => ((findChunkIndex s.chunks r.chunk).getD 0,
        1 * r.similarity, r))).length := by
    rw [List.length_map, List.length_map, List.length_take, hslen]
    omega
  rw [List.map_append, List.take_append_of_le_length (by
    rw [List.length_map]
    exact hlone)]
  rw [← List.map_take, ← List.map_take, ← List.map_take]
  rw [List.take_take, show min k (k * 2) = k from by omega]
  rw [List.map_map, List.map_map, List.map_map]
  apply List.map_congr_left
  intro c hc
  rfl

/-- With `alpha = 0` the fused call on a populated store succeeds, its
output is ordered by combined score descending, every entry passed the
filters, and every entry's combined score is the normalized BM25 score at
a corpus index whose stored chunk content matches the entry's content. -/
theorem hybrid_alpha_zero_props (s : VectorStore)
    (getScores : List String → List ℚ) (qe : List ℚ) (query : String)
    (k : Nat) (f : Option Metadata) (hInv : s.Inv)
    (hLen : (getScores (pyLowerSplit query)).length = s.chunks.length)
    (hn : s.chunks ≠ []) :
    (∃ hres, hybridSearch s getScores qe query k 0 f = .ok hres) ∧
    ∀ hres, hybridSearch s getScores qe query k 0 f = .ok hres →
      hres.Pairwise (fun a b => b.combined_score ≤ a.combined_score) ∧
      (∀ r ∈ hres, ∀ fl, f = some fl → matchesFilters r.metadata fl = true) ∧
      (∀ r ∈ hres, ∃ i b ch, s.chunks.get? i = some ch ∧
        ch.content = r.chunk.content ∧
        (normValues (getScores (pyLowerSplit query))).get? i = some b ∧
        r.combined_score = b) := by
  have hnpos : 0 < s.chunks.length := List.length_pos.mpr hn
  have hscne : getScores (pyLowerSplit query) ≠ [] := by
    intro he
    rw [he, List.length_nil] at hLen
    omega
  have hnorm := normalizeBM25_ok _ hscne
  have hnlen : (normValues (getScores (pyLowerSplit query))).length =
      s.chunks.length := by
    rw [normValues_length, hLen]
  have hbounds : ∀ p ∈ (normValues (getScores (pyLowerSplit query))).enum,
      p.1 < s.chunks.length ∧ p.1 < s.metadata_index.length := by
    intro p hp
    have hget := List.mem_enum_iff_getElem?.mp hp
    have hlt : p.1 < (normValues (getScores (pyLowerSplit query))).length :=
      (List.getElem?_eq_some.mp hget).1
    rw [hnlen] at hlt
    exact ⟨hlt, by rw [← hInv.2]; exact hlt⟩
  rcases search_ok s qe (k * 2) f hInv hn with ⟨sem, hsem⟩
  rcases bm25Fold_ok s 0 f (normValues (getScores (pyLowerSplit query))).enum
    (seedSemantic s.chunks 0 sem) hbounds with ⟨table, hfold⟩
  have hhybX : hybridSearch s getScores qe query k 0 f =
      .ok ((((stableSort (fun a b => decide (b.2.1 ≤ a.2.1)) table)).map
        toHybrid).take k) := by
    unfold hybridSearch
    rw [hsem]
    dsimp only
    unfold combineResults
    rw [hnorm]
    dsimp only
    rw [hfold]
  have hseednd := seedSemantic_keys_nodup s.chunks 0 sem
  have hseedinv : ∀ key v, (seedSemantic s.chunks 0 sem).lookup key = some v →
      key < (normValues (getScores (pyLowerSplit query))).length ∧
      (∃ ch, s.chunks.get? key = some ch ∧
        ch.content = v.2.chunk.content) ∧
      (∀ fl, f = some fl → matchesFilters v.2.metadata fl = true) ∧
      (0 ≤ key → v.1 = 0) ∧
      (key < 0 →
        v.1 = ((normValues (getScores (pyLowerSplit query))).get? key).getD 0)
      := by
    intro key v hl
    have hmem := lookup_mem key v _ hl
    rcases seedSemantic_mem_main s.chunks 0 sem (key, v) hmem with
      ⟨r, hrsem, h1, h2, h3⟩
    have hklt : key < s.chunks.length := findChunkIndex_lt _ _ _ h3
    refine ⟨by rw [hnlen]; exact hklt, ?_, ?_, ?_, ?_⟩
    · rw [findChunkIndex_eq_first] at h3
      rcases firstContentIdx_spec r.chunk.content s.chunks key h3 with
        ⟨ch, hget, hcont, _⟩
      refine ⟨ch, hget, ?_⟩
      show ch.content = (key, v).2.2.chunk.content
      rw [h1, hcont]
    · intro fl hf
      subst hf
      have hsem' : searchLoop s (some fl) (k * 2)
          (faissSearch s.index qe (k * 2 * 3)) [] = .ok sem := hsem
      rcases searchLoop_filter s fl (k * 2) _ [] sem hsem' r hrsem with
        habs | hok
      · cases habs
      · show matchesFilters (key, v).2.2.metadata fl = true
        rw [h1]
        exact hok
    · intro _
      show (key, v).2.1 = 0
      rw [h2]
      exact zero_mul _
    · intro hlt0
      exact absurd hlt0 (by omega)
  have hzero := bm25Fold_zero s f (normValues (getScores (pyLowerSplit query)))
    (le_of_eq hnlen)
    (by rw [hnlen, hInv.2])
    (normValues (getScores (pyLowerSplit query))) 0
    (seedSemantic s.chunks 0 sem) table (List.drop_zero _) hfold hseednd
    hseedinv
  refine ⟨⟨_, hhybX⟩, ?_⟩
  intro hres hhyb
  rw [hhybX] at hhyb
  cases Except.ok.inj hhyb
  have hextract : ∀ r ∈ (((stableSort (fun a b => decide (b.2.1 ≤ a.2.1))
      table)).map toHybrid).take k,
      ∃ entry, table.lookup entry.1 = some entry.2 ∧ r = toHybrid entry := by
    intro r hr
    have hr' := List.mem_of_mem_take hr
    rcases List.mem_map.mp hr' with ⟨entry, hentry, rfl⟩
    have hmem := (stableSort_perm _ _).mem_iff.mp hentry
    exact ⟨entry, lookup_of_mem_nodup table entry hzero.1 hmem, rfl⟩
  refine ⟨?_, ?_, ?_⟩
  · have hsorted := stableSort_pairwise
      (fun a b : Nat × ℚ × SearchResult => decide (b.2.1 ≤ a.2.1))
      (fun a b => by
        rcases le_total b.2.1 a.2.1 with h | h
        · exact Or.inl (by simpa using h)
        · exact Or.inr (by simpa using h))
      (fun a b c hab hbc => by
        simp only [decide_eq_true_eq] at *
        exact le_trans hbc hab)
      table
    have hmapped : ((stableSort
        (fun a b : Nat × ℚ × SearchResult => decide (b.2.1 ≤ a.2.1))
        table).map toHybrid).Pairwise
        (fun a b => b.combined_score ≤ a.combined_score) :=
      hsorted.map toHybrid
        (fun a b hab => by
          simp only [decide_eq_true_eq] at hab
          exact hab)
    exact hmapped.sublist (List.take_sublist _ _)
  · intro r hr fl hf
    rcases hextract r hr with ⟨entry, hl, heq⟩
    rcases hzero.2 entry.1 entry.2 hl with ⟨_, _, hfil, _⟩
    rw [heq]
    exact hfil fl hf
  · intro r hr
    rcases hextract r hr with ⟨entry, hl, heq⟩
    rcases hzero.2 entry.1 entry.2 hl with ⟨hklen, ⟨ch, hget, hcont⟩, _, hsc⟩
    refine ⟨entry.1, (normValues (getScores (pyLowerSplit query))).get
      ⟨entry.1, hklen⟩, ch, hget, ?_, List.get?_eq_get hklen, ?_⟩
    · rw [heq]
      exact hcont
    · rw [heq]
      show entry.2.1 =
        (normValues (getScores (pyLowerSplit query))).get ⟨entry.1, hklen⟩
      rw [hsc, List.get?_eq_get hklen]
      rfl

/-! ## Claim C2: fusion bounds -/

/-- C2 (amended): the alpha = 1.0 half of the claim fails as literally
stated, because `_combine_results` re-identifies vector results by content
(`c2_fusion_bounds_counterexample`: faiss padding collapses onto the real
result and the fused output loses entries).  Amended fusion bounds: (1)
with `alpha = 1`, no filters, at least `2k` stored chunks of pairwise
distinct content, and a BM25 scorer covering the whole corpus, the fused
output carries exactly the pure vector ranking, in order; (2) with
`alpha = 0` the call on a populated store succeeds and returns entries
sorted by combined score descending, each passing the filter predicate,
each of whose combined scores is the normalized BM25 score at a corpus
index whose stored chunk content equals the entry's content — pure lexical
ranking restricted to filter-passing entries. -/
theorem c2_fusion_bounds (s : VectorStore) (getScores : List String → List ℚ)
    (qe : List ℚ) (query : String) (k : Nat) (hInv : s.Inv)
    (hLen : (getScores (pyLowerSplit query)).length = s.chunks.length) :
    (0 < k → k * 2 ≤ s.chunks.length →
      (s.chunks.map (fun c => c.content)).Nodup →
      ∃ vres hres,
        s.search qe k none = .ok vres ∧
        hybridSearch s getScores qe query k 1 none = .ok hres ∧
        hres.map HybridResult.underlying = vres) ∧
    (∀ f : Option Metadata, s.chunks ≠ [] →
      (∃ hres, hybridSearch s getScores qe query k 0 f = .ok hres) ∧
      ∀ hres, hybridSearch s getScores qe query k 0 f = .ok hres →
        hres.Pairwise (fun a b => b.combined_score ≤ a.combined_score) ∧
        (∀ r ∈ hres, ∀ fl, f = some fl →
          matchesFilters r.metadata fl = true) ∧
        (∀ r ∈ hres, ∃ i b ch, s.chunks.get? i = some ch ∧
          ch.content = r.chunk.content ∧
          (normValues (getScores (pyLowerSplit query))).get? i = some b ∧
          r.combined_score = b)) := by
  constructor
  · intro hk h2k hnd
    exact hybrid_alpha_one_eq s getScores qe query k hInv hLen hk h2k hnd
  · intro f hn
    exact hybrid_alpha_zero_props s getScores qe query k f hInv hLen hn

/-- C2 counterexample to the literal claim: on a one-vector store queried
with k = 2 and alpha = 1.0, pure vector search returns two results (the
real one plus faiss's padding slot resolved to the last chunk), but hybrid
search returns only one, because both semantic results re-identify to
corpus index 0 and collapse — so the orders cannot be equal. -/
theorem c2_fusion_bounds_counterexample :
    Except.map (List.map HybridResult.underlying)
        (hybridSearch (VectorStore.mk 1 ⟨1, [[0]]⟩ [Chunk.mk "a" 0 []] [[]])
          (fun _ => [1]) [0] "a" 2 1 none) ≠
      (VectorStore.mk 1 ⟨1, [[0]]⟩ [Chunk.mk "a" 0 []] [[]]).search
        [0] 2 none ∧
    (VectorStore.mk 1 ⟨1, [[0]]⟩ [Chunk.mk "a" 0 []] [[]]).search [0] 2 none ≠
      .error () ∧
    hybridSearch (VectorStore.mk 1 ⟨1, [[0]]⟩ [Chunk.mk "a" 0 []] [[]])
      (fun _ => [1]) [0] "a" 2 1 none ≠ .error () := by
  have hsearch : (VectorStore.mk 1 ⟨1, [[0]]⟩ [Chunk.mk "a" 0 []]
      [[]]).search [0] 2 none =
      .ok [⟨Chunk.mk "a" 0 [], [], 0, 1⟩,
        ⟨Chunk.mk "a" 0 [], [], faissPadDistance,
          1 / (1 + faissPadDistance)⟩] := by
    simp only [VectorStore.search]
    norm_num [faissSearch, stableSort, insertSorted, sqDist, searchLoop,
      pyGet, matchesFilters, faissPadDistance]
  have hhyb : hybridSearch (VectorStore.mk 1 ⟨1, [[0]]⟩ [Chunk.mk "a" 0 []]
      [[]]) (fun _ => [1]) [0] "a" 2 1 none =
      .ok [⟨Chunk.mk "a" 0 [], [], faissPadDistance,
        1 / (1 + faissPadDistance),
        1 * (1 / (1 + faissPadDistance)) + (1 - 1) * 1⟩] := by
    simp only [hybridSearch, VectorStore.search]
    norm_num [faissSearch, stableSort, insertSorted, sqDist, searchLoop,
      pyGet, matchesFilters, faissPadDistance, combineResults, normalizeBM25,
      seedSemantic, findChunkIndex, bm25Step, dictHas, dictWrite,
      dictAddScore, toHybrid, List.foldlM, List.enum, List.enumFrom,
      normValues]
  refine ⟨?_, ?_, ?_⟩
  · rw [hsearch, hhyb]
    simp [Except.map, HybridResult.underlying]
  · rw [hsearch]
    simp
  · rw [hhyb]
    simp

/-- C2 witness: the amended theorem applied to a two-chunk store of
distinct contents with unit dimension engine and a two-score BM25 scorer,
k = 1. -/
theorem c2_fusion_bounds_witness :
    (0 < 1 → 1 * 2 ≤
        (VectorStore.mk 1 ⟨1, [[0], [1]]⟩
          [Chunk.mk "a" 0 [], Chunk.mk "b" 1 []] [[], []]).chunks.length →
      ((VectorStore.mk 1 ⟨1, [[0], [1]]⟩
        [Chunk.mk "a" 0 [], Chunk.mk "b" 1 []] [[], []]).chunks.map
          (fun c => c.content)).Nodup →
      ∃ vres hres,
        (VectorStore.mk 1 ⟨1, [[0], [1]]⟩
          [Chunk.mk "a" 0 [], Chunk.mk "b" 1 []] [[], []]).search
            [0] 1 none = .ok vres ∧
        hybridSearch (VectorStore.mk 1 ⟨1, [[0], [1]]⟩
          [Chunk.mk "a" 0 [], Chunk.mk "b" 1 []] [[], []])
          (fun _ => [1, 1 / 2]) [0] "q" 1 1 none = .ok hres ∧
        hres.map HybridResult.underlying = vres) ∧
    (∀ f : Option Metadata,
      (VectorStore.mk 1 ⟨1, [[0], [1]]⟩
        [Chunk.mk "a" 0 [], Chunk.mk "b" 1 []] [[], []]).chunks ≠ [] →
      (∃ hres, hybridSearch (VectorStore.mk 1 ⟨1, [[0], [1]]⟩
        [Chunk.mk "a" 0 [], Chunk.mk "b" 1 []] [[], []])
        (fun _ => [1, 1 / 2]) [0] "q" 1 0 f = .ok hres) ∧
      ∀ hres, hybridSearch (VectorStore.mk 1 ⟨1, [[0], [1]]⟩
          [Chunk.mk "a" 0 [], Chunk.mk "b" 1 []] [[], []])
          (fun _ => [1, 1 / 2]) [0] "q" 1 0 f = .ok hres →
        hres.Pairwise (fun a b => b.combined_score ≤ a.combined_score) ∧
        (∀ r ∈ hres, ∀ fl, f = some fl →
          matchesFilters r.metadata fl = true) ∧
        (∀ r ∈ hres, ∃ i b ch,
          (VectorStore.mk 1 ⟨1, [[0], [1]]⟩
            [Chunk.mk "a" 0 [], Chunk.mk "b" 1 []] [[], []]).chunks.get? i =
              some ch ∧
          ch.content = r.chunk.content ∧
          (normValues ((fun _ => [1, 1 / 2] : List String → List ℚ)
            (pyLowerSplit "q"))).get? i = some b ∧
          r.combined_score = b)) :=
  c2_fusion_bounds
    (VectorStore.mk 1 ⟨1, [[0], [1]]⟩
      [Chunk.mk "a" 0 [], Chunk.mk "b" 1 []] [[], []])
    (fun _ => [1, 1 / 2]) [0] "q" 1 (by decide) rfl

end RagCore
